import Mathlib

/-!
# leetcli: the reference solutions and the comparison harness

A shallow embedding of the three problems of the repository (two-sum,
reverse-linked-list, binary-tree-inorder-traversal): the reference solutions of the
`key.go` files, and the parsers, builders, comparator and loop of `main` of the
`run.go` files, with the properties the specification states about them.

Conventions of the embedding:
* a Go `int` is an `Int` in the 64-bit range, and `+`, `-` on it wrap (`goAdd`, `goSub`);
* a Go string is its list of characters;
* a `[]int` is a `List Int`; where the nil slice matters it is `none`;
* a panic (index out of range, nil dereference) is the result `none`;
* list and tree nodes are never shared, so a pointer is held as the value it owns,
  except while `buildTree` links nodes under the root, where a queued pointer is the
  path from the root;
* a candidate implementation is a function that returns normally (for the list
  problem, with a chain that ends); the two-sum candidate is handed the slice `nums`
  itself and may write to it.
-/

namespace Leetcli

/-! ## Machine integers

Go `int` on a 64-bit platform: the integers from `minInt` to `maxInt`, with
arithmetic that wraps around. -/

def minInt : Int := -9223372036854775808

def maxInt : Int := 9223372036854775807

/-- The value is representable as a Go `int`. -/
def inRange (x : Int) : Prop := minInt ≤ x ∧ x ≤ maxInt

instance (x : Int) : Decidable (inRange x) := by unfold inRange; infer_instance

/-- Reduction of a mathematical integer to the Go `int` it wraps to. -/
def wrap (x : Int) : Int :=
  (x + 9223372036854775808) % 18446744073709551616 - 9223372036854775808

/-- Go `a + b` on `int`. -/
def goAdd (a b : Int) : Int := wrap (a + b)

/-- Go `a - b` on `int`. -/
def goSub (a b : Int) : Int := wrap (a - b)

/-- The elements of a Go `[]int` value; the nil slice (`none`) has none. -/
def elems (s : Option (List Int)) : List Int := s.getD []

/-! ## two-sum/key.go -/

/-- The map `seen` of `TwoSumSolution`: value to stored index. -/
abbrev SeenMap := Int → Option Nat

/-- Map write `seen[k] = v`. -/
def SeenMap.set (m : SeenMap) (k : Int) (v : Nat) : SeenMap :=
  fun x => if x = k then some v else m x

/-- Loop `for i, n := range nums` of `TwoSumSolution`, at index `i` with the
elements from `i` on still to visit; `none` is the `return nil` after the loop. -/
def twoSumLoop (target : Int) : List Int → Nat → SeenMap → Option (List Int)
  | [], _, _ => none
  | n :: rest, i, seen =>
    match seen (goSub target n) with
    | some j => some [(j : Int), (i : Int)]
    | none => twoSumLoop target rest (i + 1) (seen.set n i)

def TwoSumSolution (nums : List Int) (target : Int) : Option (List Int) :=
  twoSumLoop target nums 0 (fun _ => none)

/-- Positions `j < i` of `nums` whose elements sum, in Go arithmetic, to `target`. -/
def isPair (nums : List Int) (target : Int) (j i : Nat) : Prop :=
  j < i ∧ i < nums.length ∧ goAdd (nums.getD j 0) (nums.getD i 0) = target

instance (nums : List Int) (target : Int) (j i : Nat) : Decidable (isPair nums target j i) := by
  unfold isPair; infer_instance

/-- Loop invariant of the map `seen` once the first `i` elements are visited: a
stored index is the last position below `i` holding the value, and a value with no
entry occurs nowhere below `i`. -/
def seenInv (nums : List Int) (i : Nat) (seen : SeenMap) : Prop :=
  (∀ v j, seen v = some j →
      j < i ∧ nums.getD j 0 = v ∧ ∀ k, j < k → k < i → nums.getD k 0 ≠ v) ∧
  (∀ v, seen v = none → ∀ k, k < i → nums.getD k 0 ≠ v)

/-- What a result of the loop says about `nums`. -/
def twoSumPost (nums : List Int) (target : Int) : Option (List Int) → Prop
  | none => ∀ i, i < nums.length → ∀ j, j < i → goSub target (nums.getD i 0) ≠ nums.getD j 0
  | some r => ∃ j i : Nat, r = [(j : Int), (i : Int)] ∧ j < i ∧ i < nums.length ∧
      nums.getD j 0 = goSub target (nums.getD i 0) ∧
      (∀ k, j < k → k < i → nums.getD k 0 ≠ goSub target (nums.getD i 0)) ∧
      (∀ i2, i2 < i → ∀ j2, j2 < i2 → goSub target (nums.getD i2 0) ≠ nums.getD j2 0)

/-! ## reverse-linked-list

A chain of `ListNode` is built fresh for every run and never shared, so a
`*ListNode` is held as the value it owns. -/

/-- A `*ListNode`: `nil`, or a node owning its value and forward reference. -/
inductive ListNode where
  | nil : ListNode
  | node (Val : Int) (Next : ListNode) : ListNode
  deriving DecidableEq, Repr

/-- Loop of `ReverseListSolution` over `(prev, curr)`: the node at `curr` gets
`prev` as its `Next` and becomes the new `prev`. -/
def reverseLoop : ListNode → ListNode → ListNode
  | prev, .nil => prev
  | prev, .node v next => reverseLoop (.node v prev) next

def ReverseListSolution (head : ListNode) : ListNode :=
  reverseLoop .nil head

/-- Assignment `tail.Next = node`, `tail` being the last node of the chain from
`head`: the `nil` that ends the chain is replaced by `node`. -/
def setTailNext : ListNode → ListNode → ListNode
  | .nil, node => node
  | .node v next, node => .node v (setTailNext next node)

/-- Loop of `buildList`; the state is `head` (`tail` is its last node). -/
def buildList (vals : List Int) : ListNode :=
  vals.foldl
    (fun head v =>
      match head with
      | .nil => .node v .nil
      | .node w next => setTailNext (.node w next) (.node v .nil))
    .nil

/-- Loop of `listToSlice` over `curr` with the output so far. -/
def listToSliceLoop : ListNode → List Int → List Int
  | .nil, out => out
  | .node v next, out => listToSliceLoop next (out ++ [v])

def listToSlice (head : ListNode) : List Int :=
  listToSliceLoop head []

/-! ## binary-tree-inorder-traversal/key.go -/

/-- A `*TreeNode`: `nil`, or a node owning its value and its two child references. -/
inductive TreeNode where
  | nil : TreeNode
  | node (Val : Int) (Left Right : TreeNode) : TreeNode
  deriving DecidableEq, Repr

/-- Number of nodes. -/
def TreeNode.size : TreeNode → Nat
  | .nil => 0
  | .node _ l r => 1 + l.size + r.size

/-- The recursive definition of the inorder sequence. -/
def inorder : TreeNode → List Int
  | .nil => []
  | .node v l r => inorder l ++ [v] ++ inorder r

/-- Inner loop `for curr != nil { stack = append(stack, curr); curr = curr.Left }`;
the top of the stack is the last entry. -/
def pushLeft : TreeNode → List TreeNode → List TreeNode
  | .nil, stack => stack
  | .node v l r, stack => pushLeft l (stack ++ [.node v l r])

/-- Work a stacked node still owes: itself and its right subtree. -/
def pending : TreeNode → Nat
  | .nil => 0
  | .node _ _ r => 1 + r.size

def pendingSum (stack : List TreeNode) : Nat := (stack.map pending).sum

/-- Outer loop `for curr != nil || len(stack) > 0` of `InorderTraversalSolution`;
`none` is a panic (index out of range at `stack[n]`, or a nil dereference). -/
def inorderLoop (result : List Int) (stack : List TreeNode) (curr : TreeNode) :
    Option (List Int) :=
  if curr ≠ .nil ∨ stack.length > 0 then
    match h : (pushLeft curr stack)[(pushLeft curr stack).length - 1]? with
    | none => none
    | some .nil => none
    | some (.node v _ r) =>
      inorderLoop (result ++ [v])
        ((pushLeft curr stack).take ((pushLeft curr stack).length - 1)) r
  else some result
termination_by pendingSum stack + curr.size
decreasing_by
  have hpush : ∀ (c : TreeNode) (s : List TreeNode),
      pendingSum (pushLeft c s) = pendingSum s + c.size := by
    intro c
    induction c with
    | nil => intro s; simp [pushLeft, TreeNode.size]
    | node w l r ihl _ =>
      intro s
      simp only [pushLeft]
      rw [ihl]
      simp [pendingSum, pending, TreeNode.size]
      omega
  rw [← hpush curr stack]
  rcases List.eq_nil_or_concat (pushLeft curr stack) with h0 | ⟨init, top, h1⟩
  · rw [h0] at h; simp at h
  · rw [h1] at h ⊢
    simp at h
    subst h
    simp [pendingSum, pending]

def InorderTraversalSolution (root : TreeNode) : Option (List Int) :=
  inorderLoop [] [] root

/-- Values emitted by a stacked node once popped: its own, then its right subtree. -/
def visit : TreeNode → List Int
  | .nil => []
  | .node v _ r => v :: inorder r

/-- Values emitted when a stack is unwound, top (last entry) first. -/
def unwind (stack : List TreeNode) : List Int := stack.reverse.flatMap visit

/-- The left spine of a tree, root first. -/
def spine : TreeNode → List TreeNode
  | .nil => []
  | .node v l r => .node v l r :: spine l

/-- Every value of the tree satisfies `p`. -/
def allVals (p : Int → Bool) : TreeNode → Bool
  | .nil => true
  | .node v l r => p v && allVals p l && allVals p r

/-- Binary search tree: at every node the values of the left subtree are `≤` the
node's value and those of the right subtree are `≥` it. -/
def isBST : TreeNode → Bool
  | .nil => true
  | .node v l r =>
    allVals (fun x => decide (x ≤ v)) l && allVals (fun x => decide (v ≤ x)) r &&
      isBST l && isBST r

/-! ## binary-tree-inorder-traversal/run.go: buildTree

While the tree is built, `queue` holds references to nodes that are already linked
under `root`; such a reference is held as the path from the root to the node. -/

/-- One step from a node to a child: the field `Left` or `Right`. -/
inductive Dir where
  | L : Dir
  | R : Dir
  deriving DecidableEq, Repr

/-- A reference to a node of the tree under construction: the path from the root. -/
abbrev NodeRef := List Dir

/-- Assignment `node.Left = child` (for `Dir.L`) or `node.Right = child` (for `Dir.R`)
through the reference `node`; `none` is a nil dereference. -/
def assignChild (d : Dir) : TreeNode → NodeRef → TreeNode → Option TreeNode
  | .nil, _, _ => none
  | .node v l r, [], child =>
    match d with
    | .L => some (.node v child r)
    | .R => some (.node v l child)
  | .node v l r, .L :: p, child => (assignChild d l p child).map (fun l2 => .node v l2 r)
  | .node v l r, .R :: p, child => (assignChild d r p child).map (fun r2 => .node v l r2)

/-- The block `if i < len(vals) && vals[i] != nil` of the loop, for the field named
by `d`: the new node is linked and appended to the queue. Returns the tree and the
queue; `none` is a panic. -/
def childStep (d : Dir) (vals : List (Option Int)) (root : TreeNode) (node : NodeRef)
    (queue : List NodeRef) (i : Nat) : Option (TreeNode × List NodeRef) :=
  if i < vals.length then
    match vals[i]? with
    | none => none
    | some none => some (root, queue)
    | some (some v) =>
      (assignChild d root node (.node v .nil .nil)).map
        (fun root2 => (root2, queue ++ [node ++ [d]]))
  else some (root, queue)

/-- Loop `for len(queue) > 0 && i < len(vals)` of `buildTree`. -/
def buildLoop (vals : List (Option Int)) (root : TreeNode) (queue : List NodeRef) (i : Nat) :
    Option TreeNode :=
  if queue.length > 0 ∧ i < vals.length then
    match queue[0]? with
    | none => none
    | some node =>
      match childStep .L vals root node (queue.drop 1) i with
      | none => none
      | some (root1, queue1) =>
        match childStep .R vals root1 node queue1 (i + 1) with
        | none => none
        | some (root2, queue2) => buildLoop vals root2 queue2 (i + 1 + 1)
  else some root
termination_by vals.length - i
decreasing_by omega

/-- The tree of a level-order sequence (`none` entries are the nil pointers of
`[]*int`); the outer `none` is a panic. -/
def buildTree (vals : List (Option Int)) : Option TreeNode :=
  if vals.length = 0 then some .nil
  else
    match vals[0]? with
    | none => none
    | some none => some .nil
    | some (some v) => buildLoop vals (.node v .nil .nil) [[]] 1

/-- The subtree a reference points at (`nil` when the path leaves the tree). -/
def nodeAt : TreeNode → NodeRef → TreeNode
  | t, [] => t
  | .nil, _ :: _ => .nil
  | .node _ l _, .L :: p => nodeAt l p
  | .node _ _ r, .R :: p => nodeAt r p

/-- Every queued reference points at a childless node of the tree, and no two queued
references are the same. -/
def QueueOk (root : TreeNode) (queue : List NodeRef) : Prop :=
  queue.Nodup ∧ ∀ p ∈ queue, ∃ v, nodeAt root p = .node v .nil .nil

/-- 1 for a present entry, 0 for an absent one. -/
def present (a : Option Int) : Nat := if a.isSome then 1 else 0

/-- Number of non-absent entries of a level-order sequence. -/
def countPresent (vals : List (Option Int)) : Nat := (vals.map present).sum

/-- Number of present entries of `rest` that the loop links into the tree when `q`
nodes are queued. -/
def attached : Nat → List (Option Int) → Nat
  | 0, _ => 0
  | _ + 1, [] => 0
  | _ + 1, [a] => present a
  | q + 1, a :: b :: rest => present a + present b + attached (q + present a + present b) rest

/-- With `q` nodes queued, every present entry of `rest` has a queued parent to be
linked under: the queue does not run out while a present entry remains. -/
def slotsOk : Nat → List (Option Int) → Bool
  | 0, rest => rest.all (fun a => a.isNone)
  | _ + 1, [] => true
  | _ + 1, [_] => true
  | q + 1, a :: b :: rest => slotsOk (q + present a + present b) rest

/-- A level-order sequence in which every present entry gets a place in the tree: a
present first entry with a parent for every later present entry, or no present
entry at all. -/
def levelOrderOk : List (Option Int) → Bool
  | [] => true
  | none :: rest => rest.all (fun a => a.isNone)
  | some _ :: rest => slotsOk 1 rest

/-! ## Text and the literal parsers of run.go

A Go string is held as its sequence of characters. -/

abbrev Str := List Char

/-- Go `unicode.IsSpace`. -/
def isSpace (c : Char) : Bool :=
  c.toNat = 0x09 || c.toNat = 0x0A || c.toNat = 0x0B || c.toNat = 0x0C || c.toNat = 0x0D ||
  c.toNat = 0x20 || c.toNat = 0x85 || c.toNat = 0xA0 || c.toNat = 0x1680 ||
  (0x2000 ≤ c.toNat && c.toNat ≤ 0x200A) || c.toNat = 0x2028 || c.toNat = 0x2029 ||
  c.toNat = 0x202F || c.toNat = 0x205F || c.toNat = 0x3000

/-- Go `strings.TrimSpace`. -/
def TrimSpace (s : Str) : Str := (s.dropWhile isSpace).rdropWhile isSpace

/-- Go `strings.TrimPrefix`. -/
def TrimPrefix (s pre : Str) : Str :=
  if pre.isPrefixOf s then s.drop pre.length else s

/-- Go `strings.TrimSuffix`. -/
def TrimSuffix (s suf : Str) : Str :=
  if suf.isSuffixOf s then s.take (s.length - suf.length) else s

/-- Go `strings.Split` for a separator of one character, as both separators of the
repository are (`","` and `";"`). -/
def Split : Str → Char → List Str
  | [], _ => [[]]
  | c :: cs, sep =>
    if c = sep then [] :: Split cs sep
    else
      match Split cs sep with
      | [] => [[c]]
      | h :: t => (c :: h) :: t

/-- Lower-case form of an ASCII letter, any other character unchanged. -/
def foldChar (c : Char) : Char :=
  if 'A' ≤ c ∧ c ≤ 'Z' then Char.ofNat (c.toNat + 32) else c

/-- Go `strings.EqualFold` against a word of ASCII letters other than `k` and `s`
(the letters with a non-ASCII case variant), such as `null`. -/
def EqualFold (t word : Str) : Bool :=
  t.map foldChar = word.map foldChar

/-- The two failure kinds of `strconv`. -/
inductive ErrKind where
  | ErrSyntax : ErrKind
  | ErrRange : ErrKind
  deriving DecidableEq, Repr

/-- Go `strconv.NumError`: the failing function, the text it was given, the kind. -/
structure NumError where
  Func : Str
  Num : Str
  Err : ErrKind
  deriving DecidableEq, Repr

/-- A Go `error` of the parsers: a `*strconv.NumError` or a `fmt.Errorf` message. -/
inductive GoError where
  | num (e : NumError) : GoError
  | errorf (msg : Str) : GoError
  deriving DecidableEq, Repr

deriving instance DecidableEq for Except

def maxUint64 : Nat := 18446744073709551615

/-- Digit loop of `strconv.ParseUint` for base 10 and 64 bits. -/
def parseUintLoop : Str → Nat → Except ErrKind Nat
  | [], n => .ok n
  | c :: cs, n =>
    if '0' ≤ c ∧ c ≤ '9' then
      if n ≥ maxUint64 / 10 + 1 then .error .ErrRange
      else if n * 10 + (c.toNat - '0'.toNat) > maxUint64 then .error .ErrRange
      else parseUintLoop cs (n * 10 + (c.toNat - '0'.toNat))
    else .error .ErrSyntax

/-- Go `strconv.ParseUint(s, 10, 64)`, with the kind of its error. -/
def ParseUint (s : Str) : Except ErrKind Nat :=
  if s = [] then .error .ErrSyntax else parseUintLoop s 0

/-- Go `strconv.Atoi` on a 64-bit platform. -/
def Atoi (s : Str) : Except NumError Int :=
  match s with
  | [] => .error ⟨"Atoi".toList, s, .ErrSyntax⟩
  | c :: rest =>
    let neg := c = '-'
    let digits := if c = '+' ∨ c = '-' then rest else s
    match ParseUint digits with
    | .error k => .error ⟨"Atoi".toList, s, k⟩
    | .ok un =>
      if ¬ neg ∧ un ≥ 9223372036854775808 then .error ⟨"Atoi".toList, s, .ErrRange⟩
      else if neg ∧ un > 9223372036854775808 then .error ⟨"Atoi".toList, s, .ErrRange⟩
      else if neg then .ok (-(un : Int)) else .ok (un : Int)

/-- Loop `for _, v := range raw` of `parseIntSlice`. -/
def parseIntLoop : List Str → List Int → Except NumError (List Int)
  | [], out => .ok out
  | v :: raw, out =>
    match Atoi (TrimSpace v) with
    | .error e => .error e
    | .ok n => parseIntLoop raw (out ++ [n])

/-- The function `parseIntSlice`, the same in the three `run.go` files. -/
def parseIntSlice (s : Str) : Except NumError (List Int) :=
  let s1 := TrimSuffix (TrimPrefix (TrimSpace s) ['[']) [']']
  if TrimSpace s1 = [] then .ok []
  else parseIntLoop (Split s1 ',') []

/-- Loop `for _, v := range raw` of `parseTreeInput`. -/
def parseTreeLoop : List Str → List (Option Int) → Except NumError (List (Option Int))
  | [], out => .ok out
  | v :: raw, out =>
    if EqualFold (TrimSpace v) "null".toList then parseTreeLoop raw (out ++ [none])
    else
      match Atoi (TrimSpace v) with
      | .error e => .error e
      | .ok n => parseTreeLoop raw (out ++ [some n])

def parseTreeInput (s : Str) : Except NumError (List (Option Int)) :=
  let s1 := TrimSuffix (TrimPrefix (TrimPrefix (TrimSpace s) "root=".toList) ['[']) [']']
  if TrimSpace s1 = [] then .ok []
  else parseTreeLoop (Split s1 ',') []

def parseInputList (s : Str) : Except NumError (List Int) :=
  parseIntSlice (TrimPrefix (TrimSpace s) "head=".toList)

/-- The function `parseInput` of two-sum/run.go. -/
def parseInput (s : Str) : Except GoError (List Int × Int) :=
  let parts := Split s ';'
  if parts.length ≠ 2 then .error (.errorf "expected nums and target".toList)
  else
    let numsPart := TrimPrefix (TrimSpace (parts.getD 0 [])) "nums=".toList
    let targetPart := TrimPrefix (TrimSpace (parts.getD 1 [])) "target=".toList
    match parseIntSlice numsPart with
    | .error e => .error (.num e)
    | .ok nums =>
      match Atoi targetPart with
      | .error e => .error (.num e)
      | .ok target => .ok (nums, target)

/-- Decimal rendering of an integer, as `strconv.Itoa` writes it. -/
def itoa (n : Int) : Str :=
  if n < 0 then '-' :: Nat.toDigits 10 n.natAbs else Nat.toDigits 10 n.natAbs

/-- The serialised form of a sequence: the decimal renderings joined by `,` between
`[` and `]`. The repository has no serialiser; this follows the format that
`parseIntSlice` reads. -/
def serialize (seq : List Int) : Str :=
  ['['] ++ List.intercalate [','] (seq.map itoa) ++ [']']

/-- The ten decimal digit characters. -/
def digitChars : List Char := ['0', '1', '2', '3', '4', '5', '6', '7', '8', '9']

/-! ## The comparator and the loop of `main` -/

/-- The function `equalSlices`, the same in the three `run.go` files. -/
def equalSlices (a b : List Int) : Bool :=
  if a.length ≠ b.length then false
  else (List.range a.length).all (fun i => decide (a[i]? = b[i]?))

/-- What the loop of `main` prints for one row. -/
inductive CaseRecord where
  | parseInputError (e : GoError) : CaseRecord
  | parseExpectedError (e : GoError) : CaseRecord
  | caseResult (ok : Bool) (gotInput gotKey expected : List Int) : CaseRecord
  deriving DecidableEq, Repr

/-- The record counts as passed. -/
def CaseRecord.passed : CaseRecord → Bool
  | .caseResult ok _ _ _ => ok
  | _ => false

/-- The record reports a parse error. -/
def CaseRecord.isParseError : CaseRecord → Bool
  | .caseResult _ _ _ _ => false
  | _ => true

/-- Field `row[k]` of a CSV record; `none` is an index out of range. -/
def field (row : List Str) (k : Nat) : Option Str := row[k]?

/-- Body of the loop of `main` in two-sum/run.go for one row. The candidate `TwoSum`
is handed the slice `nums` itself, so it returns its result together with the
contents it leaves in `nums`, which `TwoSumSolution` then reads. `none` is a panic. -/
def twoSumCase (TwoSum : List Int → Int → Option (List Int) × List Int) (row : List Str) :
    Option CaseRecord :=
  match field row 1 with
  | none => none
  | some input =>
    match parseInput input with
    | .error e => some (.parseInputError e)
    | .ok (nums, target) =>
      match field row 2 with
      | none => none
      | some exp =>
        match parseIntSlice exp with
        | .error e => some (.parseExpectedError (.num e))
        | .ok expected =>
          let gotInput := (TwoSum nums target).1
          let gotKey := TwoSumSolution (TwoSum nums target).2 target
          let ok := equalSlices (elems gotInput) (elems gotKey)
            && equalSlices (elems gotKey) expected
          some (.caseResult ok (elems gotInput) (elems gotKey) expected)

/-- Body of the loop of `main` in binary-tree-inorder-traversal/run.go for one row;
the candidate `InorderTraversal` gets a tree of its own. `none` is a panic. -/
def treeCase (InorderTraversal : TreeNode → Option (List Int)) (row : List Str) :
    Option CaseRecord :=
  match field row 1 with
  | none => none
  | some input =>
    match parseTreeInput input with
    | .error e => some (.parseInputError (.num e))
    | .ok nodes =>
      match field row 2 with
      | none => none
      | some exp =>
        match parseIntSlice exp with
        | .error e => some (.parseExpectedError (.num e))
        | .ok expected =>
          match buildTree nodes, buildTree nodes with
          | some inputRoot, some keyRoot =>
            let gotInput := InorderTraversal inputRoot
            match InorderTraversalSolution keyRoot with
            | none => none
            | some gotKey =>
              let ok := equalSlices (elems gotInput) gotKey && equalSlices gotKey expected
              some (.caseResult ok (elems gotInput) gotKey expected)
          | _, _ => none

/-- Body of the loop of `main` in reverse-linked-list/run.go for one row. -/
def listCase (ReverseList : ListNode → ListNode) (row : List Str) : Option CaseRecord :=
  match field row 1 with
  | none => none
  | some input =>
    match parseInputList input with
    | .error e => some (.parseInputError (.num e))
    | .ok inputVals =>
      match field row 2 with
      | none => none
      | some exp =>
        match parseIntSlice exp with
        | .error e => some (.parseExpectedError (.num e))
        | .ok expected =>
          let inputHead := buildList inputVals
          let keyHead := buildList inputVals
          let gotInput := listToSlice (ReverseList inputHead)
          let gotKey := listToSlice (ReverseListSolution keyHead)
          let ok := equalSlices gotInput gotKey && equalSlices gotKey expected
          some (.caseResult ok gotInput gotKey expected)

/-- The tally of `main`: the numbers `X` and `Y` of the line `passed X/Y`, and the
records printed before it. -/
structure Tally where
  passed : Nat
  total : Nat
  records : List CaseRecord
  deriving DecidableEq, Repr

/-- Loop `for i, row := range rows` of `main`, over the rows still to run, with the
count `passed` and the records so far. -/
def mainLoop (runCase : List Str → Option CaseRecord) :
    List (List Str) → Nat → List CaseRecord → Option (Nat × List CaseRecord)
  | [], passed, records => some (passed, records)
  | row :: rows, passed, records =>
    match runCase row with
    | none => none
    | some r =>
      mainLoop runCase rows (if r.passed then passed + 1 else passed) (records ++ [r])

/-- The function `main` once `readTestsCSV` has returned `rows`. -/
def mainTally (runCase : List Str → Option CaseRecord) (rows : List (List Str)) :
    Option Tally :=
  match mainLoop runCase rows 0 [] with
  | none => none
  | some (passed, records) => some ⟨passed, rows.length, records⟩

def twoSumMain (TwoSum : List Int → Int → Option (List Int) × List Int)
    (rows : List (List Str)) : Option Tally :=
  mainTally (twoSumCase TwoSum) rows

def treeMain (InorderTraversal : TreeNode → Option (List Int)) (rows : List (List Str)) :
    Option Tally :=
  mainTally (treeCase InorderTraversal) rows

def listMain (ReverseList : ListNode → ListNode) (rows : List (List Str)) : Option Tally :=
  mainTally (listCase ReverseList) rows

/-! ## What the tally is compared with -/

/-- A two-sum row passes, as the specification words it: both literals parse, the
candidate's output is the reference output for the row's `nums` and `target`, and the
reference output is the expected sequence. Outputs are compared as sequences; a nil
slice has no elements. -/
def twoSumRowPasses (TwoSum : List Int → Int → Option (List Int) × List Int)
    (row : List Str) : Bool :=
  match parseInput (row.getD 1 []), parseIntSlice (row.getD 2 []) with
  | .ok (nums, target), .ok expected =>
    decide (elems (TwoSum nums target).1 = elems (TwoSumSolution nums target) ∧
      elems (TwoSumSolution nums target) = expected)
  | _, _ => false

/-- A two-sum row has a parse failure on its input or its expected field. -/
def twoSumRowFails (row : List Str) : Bool :=
  !(parseInput (row.getD 1 [])).toBool || !(parseIntSlice (row.getD 2 [])).toBool

/-- A tree row passes, as the specification words it: both literals parse, the
candidate's output on the tree of the row is the reference output on that tree, and
the reference output is the expected sequence. -/
def treeRowPasses (InorderTraversal : TreeNode → Option (List Int)) (row : List Str) : Bool :=
  match parseTreeInput (row.getD 1 []), parseIntSlice (row.getD 2 []) with
  | .ok nodes, .ok expected =>
    decide ((buildTree nodes).map (fun root => elems (InorderTraversal root))
        = (buildTree nodes).bind InorderTraversalSolution ∧
      (buildTree nodes).bind InorderTraversalSolution = some expected)
  | _, _ => false

/-- A tree row has a parse failure on its input or its expected field. -/
def treeRowFails (row : List Str) : Bool :=
  !(parseTreeInput (row.getD 1 [])).toBool || !(parseIntSlice (row.getD 2 [])).toBool

/-- A list row passes, as the specification words it: both literals parse, the
candidate's output on the list of the row is the reference output on that list, and
the reference output is the expected sequence. -/
def listRowPasses (ReverseList : ListNode → ListNode) (row : List Str) : Bool :=
  match parseInputList (row.getD 1 []), parseIntSlice (row.getD 2 []) with
  | .ok inputVals, .ok expected =>
    decide (listToSlice (ReverseList (buildList inputVals))
        = listToSlice (ReverseListSolution (buildList inputVals)) ∧
      listToSlice (ReverseListSolution (buildList inputVals)) = expected)
  | _, _ => false

/-- A list row has a parse failure on its input or its expected field. -/
def listRowFails (row : List Str) : Bool :=
  !(parseInputList (row.getD 1 [])).toBool || !(parseIntSlice (row.getD 2 [])).toBool

/-- The tally `t` of `rows` is the one the harness promises: `Y` is the number of
rows, `X` the number of rows that pass, `X ≤ Y`, one record per row, and a row with
a parse failure has a parse-error record, which carries no output of any algorithm
and is not counted. -/
def tallyOk (passes fails : List Str → Bool) (rows : List (List Str)) (t : Tally) : Prop :=
  t.total = rows.length ∧ t.passed = rows.countP passes ∧ t.passed ≤ t.total ∧
  t.records.length = rows.length ∧
  ∀ k, k < rows.length → fails (rows.getD k []) = true →
    ∃ r, t.records[k]? = some r ∧ r.isParseError = true ∧ r.passed = false

/-! ## Further notions the properties are stated with -/

/-- The chain whose values, head to tail, are the given sequence. -/
def chainOf : List Int → ListNode
  | [] => .nil
  | v :: rest => .node v (chainOf rest)

/-- The text `parseIntSlice` is left with once the surrounding whitespace and the
bracket pair are stripped. -/
def sliceBody (s : Str) : Str :=
  TrimSuffix (TrimPrefix (TrimSpace s) ['[']) [']']

/-- The text `parseTreeInput` is left with once the surrounding whitespace, the label
`root=` and the bracket pair are stripped. -/
def treeBody (s : Str) : Str :=
  TrimSuffix (TrimPrefix (TrimPrefix (TrimSpace s) "root=".toList) ['[']) [']']

/-- The comma-separated elements of a stripped literal; a text that is empty after
trimming has none. -/
def elements (body : Str) : List Str :=
  if TrimSpace body = [] then [] else Split body ','

/-- The text consists of white space only. -/
def allSpace (w : Str) : Bool := w.all isSpace

/-- The word `null` in any letter case. -/
def isNullWord (t : Str) : Bool :=
  match t with
  | [a, b, c, d] =>
    decide ((a = 'n' ∨ a = 'N') ∧ (b = 'u' ∨ b = 'U') ∧ (c = 'l' ∨ c = 'L') ∧
      (d = 'l' ∨ d = 'L'))
  | _ => false

/-- What an element of a tree literal stands for: an absent entry for the word
`null`, an integer for a valid integer, nothing (`none`) for any other token. -/
def elemValue (v : Str) : Option (Option Int) :=
  if isNullWord (TrimSpace v) then some none
  else
    match Atoi (TrimSpace v) with
    | .ok n => some (some n)
    | .error _ => none

/-- The level-order index a reference leads to, from the node of index `r`: the
children of index `k` have the indices `2k+1` and `2k+2`. -/
def walk : Nat → NodeRef → Nat
  | r, [] => r
  | r, .L :: p => walk (2 * r + 1) p
  | r, .R :: p => walk (2 * r + 2) p

/-- Index `a` is index `i` or one of its ancestors in the level-order numbering. -/
inductive IsAnc : Nat → Nat → Prop where
  | self (a : Nat) : IsAnc a a
  | left (a i : Nat) (h : IsAnc a i) : IsAnc a (2 * i + 1)
  | right (a i : Nat) (h : IsAnc a i) : IsAnc a (2 * i + 2)

/-- The breadth-first (heap-shaped) tree over the first `n` entries of `xs`, from
index `k` down: the node of index `k` holds `xs[k]`, its left child is the node of
index `2k+1` and its right child the node of index `2k+2`, each present exactly when
its index is below `n`. -/
def heapTree (xs : List Int) (n k : Nat) : TreeNode :=
  if k < n then
    .node (xs.getD k 0) (heapTree xs n (2 * k + 1)) (heapTree xs n (2 * k + 2))
  else .nil
termination_by n - k
decreasing_by
  all_goals omega

/-! ## two-sum: the single pass finds the first match -/

theorem goSub_eq_iff (t a b : Int) (ht : inRange t) (hb : inRange b) :
    goSub t a = b ↔ goAdd b a = t := by
  unfold goSub goAdd wrap inRange minInt maxInt at *
  omega

theorem seenInv_set (nums : List Int) (i : Nat) (seen : SeenMap) (n : Int)
    (hn : nums.getD i 0 = n) (h : seenInv nums i seen) :
    seenInv nums (i + 1) (seen.set n i) := by
  obtain ⟨h1, h2⟩ := h
  refine ⟨?_, ?_⟩
  · intro v j hv
    unfold SeenMap.set at hv
    by_cases hvn : v = n
    · simp only [hvn, if_true, Option.some.injEq] at hv
      subst hv
      refine ⟨by omega, by rw [hn, hvn], ?_⟩
      intro k hk1 hk2; omega
    · simp only [hvn, if_false] at hv
      obtain ⟨a, b, c⟩ := h1 v j hv
      refine ⟨by omega, b, ?_⟩
      intro k hk1 hk2
      by_cases hki : k = i
      · subst hki; rw [hn]; exact fun e => hvn e.symm
      · exact c k hk1 (by omega)
  · intro v hv k hk
    unfold SeenMap.set at hv
    by_cases hvn : v = n
    · simp [hvn] at hv
    · simp only [hvn, if_false] at hv
      by_cases hki : k = i
      · subst hki; rw [hn]; exact fun e => hvn e.symm
      · exact h2 v hv k (by omega)

theorem twoSumLoop_post (nums : List Int) (target : Int) :
    ∀ (rest : List Int) (i : Nat) (seen : SeenMap),
      nums.drop i = rest → seenInv nums i seen →
      (∀ i2, i2 < i → ∀ j2, j2 < i2 → goSub target (nums.getD i2 0) ≠ nums.getD j2 0) →
      twoSumPost nums target (twoSumLoop target rest i seen) := by
  intro rest
  induction rest with
  | nil =>
    intro i seen hd _ hno
    have hlen : nums.length ≤ i := by
      have := congrArg List.length hd
      simp at this; omega
    unfold twoSumLoop twoSumPost
    intro i2 hi2 j2 hj2
    exact hno i2 (by omega) j2 hj2
  | cons n rest ih =>
    intro i seen hd hinv hno
    have hi : i < nums.length := by
      have := congrArg List.length hd
      simp at this; omega
    have hn : nums.getD i 0 = n := by
      have h0 := congrArg (fun l => l.getD 0 0) hd
      simpa [List.getD_eq_getElem?_getD, List.getElem?_drop] using h0
    have hd2 : nums.drop (i + 1) = rest := by
      have := congrArg List.tail hd
      simpa [List.tail_drop] using this
    unfold twoSumLoop
    cases hs : seen (goSub target n) with
    | some j =>
      simp only
      obtain ⟨a, b, c⟩ := hinv.1 _ _ hs
      exact ⟨j, i, rfl, a, hi, by rw [hn]; exact b, by rw [hn]; exact c, hno⟩
    | none =>
      simp only
      apply ih (i + 1) (seen.set n i) hd2 (seenInv_set nums i seen n hn hinv)
      intro i2 hi2 j2 hj2
      by_cases h : i2 = i
      · subst h; rw [hn]; exact fun e => hinv.2 _ hs j2 hj2 e.symm
      · exact hno i2 (by omega) j2 hj2

theorem TwoSumSolution_post (nums : List Int) (target : Int) :
    twoSumPost nums target (TwoSumSolution nums target) := by
  unfold TwoSumSolution
  apply twoSumLoop_post nums target nums 0 _ rfl
  · exact ⟨fun v j h => by simp at h, fun v _ k hk => by omega⟩
  · intro i2 hi2; omega

theorem inRange_getD (nums : List Int) (hn : ∀ x ∈ nums, inRange x) (k : Nat) :
    inRange (nums.getD k 0) := by
  by_cases hk : k < nums.length
  · rw [List.getD_eq_getElem _ _ hk]; exact hn _ (List.getElem_mem hk)
  · rw [List.getD_eq_default _ _ (by omega)]; decide

theorem twoSum_first_match (nums : List Int) (target : Int)
    (hn : ∀ x ∈ nums, inRange x) (ht : inRange target) :
    (TwoSumSolution nums target = none ↔ ¬ ∃ j i, isPair nums target j i) ∧
    ((∃ j i, isPair nums target j i) →
      ∃ j i : Nat, TwoSumSolution nums target = some [(j : Int), (i : Int)] ∧
        isPair nums target j i ∧
        (∀ j2 i2, isPair nums target j2 i2 → i ≤ i2) ∧
        nums.getD j 0 = goSub target (nums.getD i 0) ∧
        (∀ k, k < i → nums.getD k 0 = goSub target (nums.getD i 0) → k ≤ j)) := by
  have hpost := TwoSumSolution_post nums target
  have key : ∀ j i : Nat, goSub target (nums.getD i 0) = nums.getD j 0 ↔
      goAdd (nums.getD j 0) (nums.getD i 0) = target :=
    fun j i => goSub_eq_iff target _ _ ht (inRange_getD nums hn j)
  cases hr : TwoSumSolution nums target with
  | none =>
    rw [hr] at hpost
    have hnone : ¬ ∃ j i, isPair nums target j i := by
      rintro ⟨j, i, hji, hi, hsum⟩
      exact hpost i hi j hji ((key j i).2 hsum)
    exact ⟨⟨fun _ => hnone, fun _ => rfl⟩, fun h => absurd h hnone⟩
  | some r =>
    rw [hr] at hpost
    obtain ⟨j, i, hrji, hji, hi, hval, hmax, hfirst⟩ := hpost
    have hp : isPair nums target j i := ⟨hji, hi, (key j i).1 hval.symm⟩
    refine ⟨⟨fun h => by simp at h, fun h => absurd ⟨j, i, hp⟩ h⟩, fun _ => ?_⟩
    refine ⟨j, i, by rw [hrji], hp, ?_, hval, ?_⟩
    · rintro j2 i2 ⟨hj2, _, hsum2⟩
      by_contra hlt
      exact hfirst i2 (by omega) j2 hj2 ((key j2 i2).2 hsum2)
    · intro k hk hkv
      by_contra hlt
      exact hmax k (by omega) hk hkv

/-! ## reverse-linked-list: the chain read back as a sequence -/

theorem listToSliceLoop_eq (h : ListNode) (out : List Int) :
    listToSliceLoop h out = out ++ listToSlice h := by
  induction h generalizing out with
  | nil => simp [listToSliceLoop, listToSlice]
  | node v next ih =>
    simp only [listToSlice, listToSliceLoop]
    rw [ih (out ++ [v]), ih ([] ++ [v])]
    simp [listToSlice]

theorem listToSlice_node (v : Int) (next : ListNode) :
    listToSlice (.node v next) = v :: listToSlice next := by
  simp only [listToSlice, listToSliceLoop]
  rw [listToSliceLoop_eq]
  simp [listToSlice]

theorem listToSlice_nil : listToSlice .nil = [] := rfl

theorem listToSlice_setTailNext (h n : ListNode) :
    listToSlice (setTailNext h n) = listToSlice h ++ listToSlice n := by
  induction h with
  | nil => simp [setTailNext, listToSlice_nil]
  | node v next ih =>
    simp only [setTailNext]
    rw [listToSlice_node, ih, listToSlice_node]
    simp

theorem listToSlice_buildList_foldl (vals : List Int) (h : ListNode) :
    listToSlice (vals.foldl
      (fun head v =>
        match head with
        | .nil => .node v .nil
        | .node w next => setTailNext (.node w next) (.node v .nil)) h)
      = listToSlice h ++ vals := by
  induction vals generalizing h with
  | nil => simp
  | cons v rest ih =>
    simp only [List.foldl_cons]
    rw [ih]
    cases h with
    | nil => simp [listToSlice_node, listToSlice_nil]
    | node w next =>
      simp only
      rw [listToSlice_setTailNext]
      simp [listToSlice_node, listToSlice_nil]

theorem listToSlice_buildList (vals : List Int) : listToSlice (buildList vals) = vals := by
  unfold buildList
  rw [listToSlice_buildList_foldl]
  simp [listToSlice_nil]

theorem listToSlice_reverseLoop (prev curr : ListNode) :
    listToSlice (reverseLoop prev curr) = (listToSlice curr).reverse ++ listToSlice prev := by
  induction curr generalizing prev with
  | nil => simp [reverseLoop, listToSlice_nil]
  | node v next ih =>
    simp only [reverseLoop]
    rw [ih, listToSlice_node, listToSlice_node]
    simp

theorem listToSlice_ReverseListSolution (h : ListNode) :
    listToSlice (ReverseListSolution h) = (listToSlice h).reverse := by
  unfold ReverseListSolution
  rw [listToSlice_reverseLoop]
  simp [listToSlice_nil]

/-! ## binary-tree-inorder-traversal: the explicit stack against the recursion -/

theorem pushLeft_eq (curr : TreeNode) (stack : List TreeNode) :
    pushLeft curr stack = stack ++ spine curr := by
  induction curr generalizing stack with
  | nil => simp [pushLeft, spine]
  | node v l r ihl _ => simp [pushLeft, spine, ihl]

theorem unwind_append (a b : List TreeNode) : unwind (a ++ b) = unwind b ++ unwind a := by
  simp [unwind]

theorem unwind_spine (t : TreeNode) : unwind (spine t) = inorder t := by
  induction t with
  | nil => rfl
  | node v l r ihl _ =>
    have : spine (.node v l r) = [.node v l r] ++ spine l := rfl
    rw [this, unwind_append, ihl]
    simp [unwind, visit, inorder]

theorem spine_ne_nil (t : TreeNode) : ∀ n ∈ spine t, n ≠ .nil := by
  induction t with
  | nil => simp [spine]
  | node v l r ihl _ =>
    intro n hn
    simp only [spine, List.mem_cons] at hn
    rcases hn with h | h
    · rw [h]; exact fun e => by cases e
    · exact ihl n h

theorem inorderLoop_eq : ∀ (m : Nat) (result : List Int) (stack : List TreeNode)
    (curr : TreeNode), pendingSum stack + curr.size ≤ m → (∀ n ∈ stack, n ≠ .nil) →
    inorderLoop result stack curr = some (result ++ inorder curr ++ unwind stack) := by
  intro m
  induction m with
  | zero =>
    intro result stack curr hm hs
    have hc : curr = .nil := by
      cases curr with
      | nil => rfl
      | node v l r => simp [TreeNode.size] at hm
    have hst : stack = [] := by
      cases stack with
      | nil => rfl
      | cons a rest =>
        have ha := hs a (by simp)
        cases a with
        | nil => exact absurd rfl ha
        | node v l r => simp [pendingSum, pending] at hm
    subst hc; subst hst
    rw [inorderLoop]
    simp [inorder, unwind]
  | succ m ih =>
    intro result stack curr hm hs
    rw [inorderLoop]
    by_cases hcond : curr ≠ .nil ∨ stack.length > 0
    · rw [if_pos hcond]
      have hall : ∀ n ∈ stack ++ spine curr, n ≠ .nil := by
        intro n hn
        rcases List.mem_append.1 hn with h | h
        · exact hs n h
        · exact spine_ne_nil curr n h
      have hne : stack ++ spine curr ≠ [] := by
        rcases hcond with h | h
        · cases curr with
          | nil => exact absurd rfl h
          | node v l r => simp [spine]
        · intro e
          have : stack = [] := (List.append_eq_nil.1 e).1
          simp [this] at h
      rcases List.eq_nil_or_concat (stack ++ spine curr) with h0 | ⟨init, top, h1⟩
      · exact absurd h0 hne
      · rw [List.concat_eq_append] at h1
        have hsz : pendingSum (stack ++ spine curr) = pendingSum stack + curr.size := by
          rw [← pushLeft_eq]
          clear hne hall h1 hcond hs hm ih
          induction curr generalizing stack with
          | nil => simp [pushLeft, TreeNode.size]
          | node w l r ihl _ =>
            simp only [pushLeft]
            rw [ihl]
            simp [pendingSum, pending, TreeNode.size]
            omega
        have hun : unwind (stack ++ spine curr) = inorder curr ++ unwind stack := by
          rw [unwind_append, unwind_spine]
        have htop : top ≠ .nil := hall top (by rw [h1]; simp)
        have hinit : ∀ n ∈ init, n ≠ .nil := fun n hn => hall n (by rw [h1]; simp [hn])
        cases top with
        | nil => exact absurd rfl htop
        | node v l r =>
          have hget : (pushLeft curr stack)[(pushLeft curr stack).length - 1]?
              = some (.node v l r) := by
            rw [pushLeft_eq, h1]; simp
          have htake : (pushLeft curr stack).take ((pushLeft curr stack).length - 1) = init := by
            rw [pushLeft_eq, h1]; simp
          have hrec := ih (result ++ [v]) init r (by
            rw [h1] at hsz
            simp [pendingSum, pending] at hsz
            simp only [pendingSum] at hm ⊢
            omega) hinit
          split
          · rename_i heq; rw [hget] at heq; cases heq
          · rename_i heq; rw [hget] at heq; cases heq
          · rename_i v2 l2 r2 heq
            rw [hget] at heq
            cases heq
            rw [htake, hrec]
            rw [h1, unwind_append] at hun
            simp only [unwind, List.reverse_cons, List.reverse_nil, List.nil_append,
              List.flatMap_cons, List.flatMap_nil, List.append_nil, visit] at hun
            simp only [unwind] at hun ⊢
            rw [List.append_assoc result (inorder curr), ← hun]
            simp
    · rw [if_neg hcond]
      have hc : curr = .nil := by
        by_contra h; exact hcond (Or.inl h)
      have hst : stack = [] := by
        cases stack with
        | nil => rfl
        | cons a rest => exact absurd (Or.inr (by simp)) hcond
      subst hc; subst hst
      simp [inorder, unwind]

theorem InorderTraversalSolution_eq (t : TreeNode) :
    InorderTraversalSolution t = some (inorder t) := by
  unfold InorderTraversalSolution
  rw [inorderLoop_eq _ [] [] t (le_refl _) (by simp)]
  simp [unwind]


/-! ## buildTree: what the queue holds, and how many nodes are linked -/

theorem nodeAt_nil (p : NodeRef) : nodeAt .nil p = .nil := by
  cases p <;> rfl

theorem nodeAt_append (root : TreeNode) (p q : NodeRef) :
    nodeAt root (p ++ q) = nodeAt (nodeAt root p) q := by
  induction p generalizing root with
  | nil => simp [nodeAt]
  | cons d p ih =>
    cases root with
    | nil => simp [nodeAt, nodeAt_nil]
    | node v l r => cases d <;> simp [nodeAt, ih]

theorem assignChild_isSome (d : Dir) (root : TreeNode) (p : NodeRef) (c : TreeNode)
    (h : nodeAt root p ≠ .nil) : ∃ root2, assignChild d root p c = some root2 := by
  induction p generalizing root with
  | nil =>
    cases root with
    | nil => exact absurd rfl h
    | node v l r => cases d <;> simp [assignChild]
  | cons e p ih =>
    cases root with
    | nil => exact absurd rfl h
    | node v l r =>
      cases e with
      | L =>
        obtain ⟨l2, hl⟩ := ih l (by simpa [nodeAt] using h)
        exact ⟨.node v l2 r, by simp [assignChild, hl]⟩
      | R =>
        obtain ⟨r2, hr⟩ := ih r (by simpa [nodeAt] using h)
        exact ⟨.node v l r2, by simp [assignChild, hr]⟩

theorem assignChild_size (d : Dir) (root : TreeNode) (p : NodeRef) (c root2 : TreeNode)
    (h : assignChild d root p c = some root2) (hnil : nodeAt root (p ++ [d]) = .nil) :
    root2.size = root.size + c.size := by
  induction p generalizing root root2 with
  | nil =>
    cases root with
    | nil => simp [assignChild] at h
    | node v l r =>
      cases d
      · simp [assignChild] at h
        subst h
        simp [nodeAt] at hnil
        subst hnil
        simp [TreeNode.size]
        omega
      · simp [assignChild] at h
        subst h
        simp [nodeAt] at hnil
        subst hnil
        simp [TreeNode.size]
  | cons e p ih =>
    cases root with
    | nil => simp [assignChild] at h
    | node v l r =>
      cases e with
      | L =>
        simp only [assignChild, Option.map_eq_some'] at h
        obtain ⟨l2, hl, rfl⟩ := h
        have := ih l l2 hl (by simpa [nodeAt] using hnil)
        simp [TreeNode.size, this]; omega
      | R =>
        simp only [assignChild, Option.map_eq_some'] at h
        obtain ⟨r2, hr, rfl⟩ := h
        have := ih r r2 hr (by simpa [nodeAt] using hnil)
        simp [TreeNode.size, this]; omega

theorem assignChild_nodeAt_new (d : Dir) (root : TreeNode) (p : NodeRef) (c root2 : TreeNode)
    (h : assignChild d root p c = some root2) : nodeAt root2 (p ++ [d]) = c := by
  induction p generalizing root root2 with
  | nil =>
    cases root with
    | nil => simp [assignChild] at h
    | node v l r => cases d <;> simp [assignChild] at h <;> subst h <;> simp [nodeAt]
  | cons e p ih =>
    cases root with
    | nil => simp [assignChild] at h
    | node v l r =>
      cases e with
      | L =>
        simp only [assignChild, Option.map_eq_some'] at h
        obtain ⟨l2, hl, rfl⟩ := h
        simpa [nodeAt] using ih l l2 hl
      | R =>
        simp only [assignChild, Option.map_eq_some'] at h
        obtain ⟨r2, hr, rfl⟩ := h
        simpa [nodeAt] using ih r r2 hr

theorem assignChild_nodeAt_self (d : Dir) (root : TreeNode) (p : NodeRef) (c root2 : TreeNode)
    (h : assignChild d root p c = some root2) : nodeAt root2 p ≠ .nil := by
  induction p generalizing root root2 with
  | nil =>
    cases root with
    | nil => simp [assignChild] at h
    | node v l r => cases d <;> simp [assignChild] at h <;> subst h <;> simp [nodeAt]
  | cons e p ih =>
    cases root with
    | nil => simp [assignChild] at h
    | node v l r =>
      cases e with
      | L =>
        simp only [assignChild, Option.map_eq_some'] at h
        obtain ⟨l2, hl, rfl⟩ := h
        simpa [nodeAt] using ih l l2 hl
      | R =>
        simp only [assignChild, Option.map_eq_some'] at h
        obtain ⟨r2, hr, rfl⟩ := h
        simpa [nodeAt] using ih r r2 hr

theorem assignChild_nodeAt_other (d : Dir) (root : TreeNode) (p q : NodeRef)
    (c root2 : TreeNode) (h : assignChild d root p c = some root2)
    (h1 : ¬ q <+: p) (h2 : ¬ (p ++ [d]) <+: q) : nodeAt root2 q = nodeAt root q := by
  induction p generalizing root root2 q with
  | nil =>
    cases root with
    | nil => simp [assignChild] at h
    | node v l r =>
      cases q with
      | nil => exact absurd (List.nil_prefix) h1
      | cons e q =>
        cases d <;> cases e <;> simp [assignChild] at h <;> subst h <;>
          simp [nodeAt] <;> simp at h2
  | cons e p ih =>
    cases root with
    | nil => simp [assignChild] at h
    | node v l r =>
      cases q with
      | nil => exact absurd (List.nil_prefix) h1
      | cons e2 q =>
        cases e with
        | L =>
          simp only [assignChild, Option.map_eq_some'] at h
          obtain ⟨l2, hl, rfl⟩ := h
          cases e2 with
          | L =>
            simp only [nodeAt]
            apply ih l q l2 hl
            · intro hp; exact h1 (by simpa [List.cons_prefix_cons] using hp)
            · intro hp; exact h2 (by simpa [List.cons_prefix_cons] using hp)
          | R => simp [nodeAt]
        | R =>
          simp only [assignChild, Option.map_eq_some'] at h
          obtain ⟨r2, hr, rfl⟩ := h
          cases e2 with
          | R =>
            simp only [nodeAt]
            apply ih r q r2 hr
            · intro hp; exact h1 (by simpa [List.cons_prefix_cons] using hp)
            · intro hp; exact h2 (by simpa [List.cons_prefix_cons] using hp)
          | L => simp [nodeAt]

theorem nodeAt_leaf (v : Int) (t : NodeRef) (ht : t ≠ []) :
    nodeAt (.node v .nil .nil) t = .nil := by
  cases t with
  | nil => exact absurd rfl ht
  | cons e t => cases e <;> simp [nodeAt, nodeAt_nil]

theorem childStep_ok (d : Dir) (vals : List (Option Int)) (root : TreeNode) (node : NodeRef)
    (queue : List NodeRef) (i : Nat) (hq : QueueOk root queue)
    (hnode : nodeAt root node ≠ .nil) (hchild : nodeAt root (node ++ [d]) = .nil)
    (hnot : node ∉ queue) :
    ∃ root2 queue2, childStep d vals root node queue i = some (root2, queue2) ∧
      root2.size = root.size + present (vals.getD i none) ∧
      queue2.length = queue.length + present (vals.getD i none) ∧
      QueueOk root2 queue2 ∧ node ∉ queue2 ∧ nodeAt root2 node ≠ .nil ∧
      (∀ e, e ≠ d → nodeAt root2 (node ++ [e]) = nodeAt root (node ++ [e])) := by
  unfold childStep
  by_cases hi : i < vals.length
  · rw [if_pos hi, List.getD_eq_getElem _ _ hi, List.getElem?_eq_getElem hi]
    cases hv : vals[i] with
    | none =>
      exact ⟨root, queue, rfl, by simp [present], by simp [present], hq, hnot, hnode,
        fun _ _ => rfl⟩
    | some v =>
      obtain ⟨root2, hr⟩ := assignChild_isSome d root node (.node v .nil .nil) hnode
      refine ⟨root2, queue ++ [node ++ [d]], by simp [hr], ?_, by simp [present], ?_, ?_,
        assignChild_nodeAt_self d root node _ root2 hr, ?_⟩
      · rw [assignChild_size d root node _ root2 hr hchild]
        simp [present, TreeNode.size]
      · have hnew : node ++ [d] ∉ queue := by
          intro hmem
          obtain ⟨w, hw⟩ := hq.2 _ hmem
          rw [hchild] at hw
          cases hw
        refine ⟨?_, ?_⟩
        · rw [List.nodup_append]
          refine ⟨hq.1, by simp, ?_⟩
          intro a ha hb
          simp only [List.mem_singleton] at hb
          subst hb
          exact hnew ha
        · intro p hp
          rcases List.mem_append.1 hp with hp1 | hp1
          · obtain ⟨w, hw⟩ := hq.2 p hp1
            refine ⟨w, ?_⟩
            rw [assignChild_nodeAt_other d root node p _ root2 hr ?_ ?_, hw]
            · rintro ⟨t, ht⟩
              by_cases ht0 : t = []
              · subst ht0
                simp only [List.append_nil] at ht
                subst ht
                exact hnot hp1
              · apply hnode
                rw [← ht, nodeAt_append, hw, nodeAt_leaf w t ht0]
            · rintro ⟨t, ht⟩
              rw [← ht, nodeAt_append, hchild, nodeAt_nil] at hw
              cases hw
          · simp only [List.mem_singleton] at hp1
            subst hp1
            exact ⟨v, assignChild_nodeAt_new d root node _ root2 hr⟩
      · intro hmem
        rcases List.mem_append.1 hmem with h | h
        · exact hnot h
        · simp only [List.mem_singleton] at h
          have := congrArg List.length h
          simp at this
      · intro e he
        apply assignChild_nodeAt_other d root node _ _ root2 hr
        · rintro ⟨t, ht⟩
          have := congrArg List.length ht
          simp at this
        · rintro ⟨t, ht⟩
          have hlen := congrArg List.length ht
          simp at hlen
          have ht0 : t = [] := hlen
          subst ht0
          simp at ht
          exact he ht.symm
  · rw [if_neg hi, List.getD_eq_default _ _ (by omega)]
    exact ⟨root, queue, rfl, by simp [present], by simp [present], hq, hnot, hnode,
      fun _ _ => rfl⟩

theorem buildLoop_size (vals : List (Option Int)) :
    ∀ (n : Nat) (root : TreeNode) (queue : List NodeRef) (i : Nat),
      vals.length - i ≤ n → QueueOk root queue →
      ∃ t, buildLoop vals root queue i = some t ∧
        t.size = root.size + attached queue.length (vals.drop i) := by
  intro n
  induction n with
  | zero =>
    intro root queue i hn _
    rw [buildLoop, if_neg (by omega)]
    refine ⟨root, rfl, ?_⟩
    rw [List.drop_eq_nil_of_le (by omega)]
    cases queue <;> simp [attached]
  | succ n ih =>
    intro root queue i hn hq
    rw [buildLoop]
    by_cases hcond : queue.length > 0 ∧ i < vals.length
    · rw [if_pos hcond]
      obtain ⟨hql, hi⟩ := hcond
      cases queue with
      | nil => simp at hql
      | cons node queue1 =>
        simp only [List.getElem?_cons_zero, List.drop_succ_cons, List.drop_zero]
        have hq1 : QueueOk root queue1 :=
          ⟨(List.nodup_cons.1 hq.1).2, fun p hp => hq.2 p (List.mem_cons_of_mem _ hp)⟩
        have hnot : node ∉ queue1 := (List.nodup_cons.1 hq.1).1
        obtain ⟨w, hw⟩ := hq.2 node (List.mem_cons_self _ _)
        have hnode : nodeAt root node ≠ .nil := by rw [hw]; exact fun e => by cases e
        have hL : nodeAt root (node ++ [.L]) = .nil := by
          rw [nodeAt_append, hw]; rfl
        have hR : nodeAt root (node ++ [.R]) = .nil := by
          rw [nodeAt_append, hw]; rfl
        obtain ⟨root1, queue2, hs1, hsz1, hlen1, hq2, hnot2, hnode2, hoth⟩ :=
          childStep_ok .L vals root node queue1 i hq1 hnode hL hnot
        have hR1 : nodeAt root1 (node ++ [.R]) = .nil := by
          rw [hoth .R (by decide), hR]
        obtain ⟨root2, queue3, hs2, hsz2, hlen2, hq3, _, _, _⟩ :=
          childStep_ok .R vals root1 node queue2 (i + 1) hq2 hnode2 hR1 hnot2
        rw [hs1]
        simp only
        rw [hs2]
        simp only
        obtain ⟨t, ht, htsz⟩ := ih root2 queue3 (i + 1 + 1) (by omega) hq3
        refine ⟨t, ht, ?_⟩
        rw [htsz, hsz2, hsz1, hlen2, hlen1]
        have hd : vals.drop i = vals.getD i none :: vals.drop (i + 1) := by
          rw [List.getD_eq_getElem _ _ hi]; exact List.drop_eq_getElem_cons hi
        by_cases hi1 : i + 1 < vals.length
        · have hd1 : vals.drop (i + 1) = vals.getD (i + 1) none :: vals.drop (i + 1 + 1) := by
            rw [List.getD_eq_getElem _ _ hi1]; exact List.drop_eq_getElem_cons hi1
          rw [hd, hd1]
          simp only [List.length_cons, attached]
          have e : queue1.length + present (vals.getD i none)
              + present (vals.getD (i + 1) none)
              = queue1.length + present (vals.getD i none)
              + present (vals.getD (i + 1) none) := rfl
          omega
        · have hd1 : vals.drop (i + 1) = [] := List.drop_eq_nil_of_le (by omega)
          have hd2 : vals.drop (i + 1 + 1) = [] := List.drop_eq_nil_of_le (by omega)
          rw [hd, hd1, hd2, List.getD_eq_default vals none (by omega : vals.length ≤ i + 1)]
          simp only [List.length_cons, attached]
          cases (queue1.length + present (vals.getD i none) + present none) <;>
            simp [attached, present]
    · rw [if_neg hcond]
      refine ⟨root, rfl, ?_⟩
      by_cases hql : queue.length > 0
      · rw [List.drop_eq_nil_of_le (by omega)]
        cases queue <;> simp [attached]
      · have : queue = [] := List.length_eq_zero.1 (by omega)
        subst this
        simp [attached]

/-! ## Parsing the serialised form of a sequence -/

theorem digitChar_mem (d : Nat) (hd : d < 10) : Nat.digitChar d ∈ digitChars := by
  interval_cases d <;> decide

theorem parseUintLoop_digitChar (d n : Nat) (hd : d < 10) (hn : n * 10 + d ≤ maxUint64)
    (cs : Str) :
    parseUintLoop (Nat.digitChar d :: cs) n = parseUintLoop cs (n * 10 + d) := by
  have h1 : ('0' ≤ Nat.digitChar d ∧ Nat.digitChar d ≤ '9') ∧
      (Nat.digitChar d).toNat - '0'.toNat = d := by
    interval_cases d <;> decide
  have h2 : ¬ n ≥ maxUint64 / 10 + 1 := by
    unfold maxUint64 at *
    omega
  simp only [parseUintLoop, h1.1, and_self, if_true, h2, if_false, h1.2]
  rw [if_neg (by omega)]

theorem parseUintLoop_append (a b : Str) (n k : Nat) (h : parseUintLoop a n = .ok k) :
    parseUintLoop (a ++ b) n = parseUintLoop b k := by
  induction a generalizing n with
  | nil => simp [parseUintLoop] at h; subst h; rfl
  | cons c cs ih =>
    simp only [List.cons_append, parseUintLoop] at h ⊢
    split_ifs at h ⊢ with h1 h2 h3
    exact ih _ h

theorem toDigitsCore_eq : ∀ (n fuel : Nat) (ds : List Char), n < fuel →
    Nat.toDigitsCore 10 fuel n ds =
      (if n < 10 then [Nat.digitChar n]
        else Nat.toDigits 10 (n / 10) ++ [Nat.digitChar (n % 10)]) ++ ds := by
  intro n
  induction n using Nat.strong_induction_on with
  | _ n ih =>
    intro fuel ds hf
    cases fuel with
    | zero => omega
    | succ f =>
      simp only [Nat.toDigitsCore]
      by_cases h0 : n / 10 = 0
      · have hn : n < 10 := by omega
        rw [if_pos h0, if_pos hn, Nat.mod_eq_of_lt hn]
        rfl
      · have hn : ¬ n < 10 := by omega
        rw [if_neg h0, if_neg hn]
        have hlt : n / 10 < n := by omega
        rw [ih (n / 10) hlt f _ (by omega)]
        have ht : Nat.toDigits 10 (n / 10) = Nat.toDigitsCore 10 (n / 10 + 1) (n / 10) [] := rfl
        rw [ht, ih (n / 10) hlt (n / 10 + 1) [] (by omega)]
        simp

theorem toDigits_eq (n : Nat) :
    Nat.toDigits 10 n =
      if n < 10 then [Nat.digitChar n]
      else Nat.toDigits 10 (n / 10) ++ [Nat.digitChar (n % 10)] := by
  conv_lhs => unfold Nat.toDigits
  rw [toDigitsCore_eq n (n + 1) [] (by omega)]
  simp

theorem toDigits_ne_nil (n : Nat) : Nat.toDigits 10 n ≠ [] := by
  rw [toDigits_eq]
  split_ifs <;> simp

theorem toDigits_mem : ∀ (n : Nat), ∀ c ∈ Nat.toDigits 10 n, c ∈ digitChars := by
  intro n
  induction n using Nat.strong_induction_on with
  | _ n ih =>
    intro c hc
    rw [toDigits_eq] at hc
    split_ifs at hc with h
    · simp only [List.mem_singleton] at hc
      subst hc
      exact digitChar_mem n h
    · rcases List.mem_append.1 hc with h1 | h1
      · exact ih (n / 10) (by omega) c h1
      · simp only [List.mem_singleton] at h1
        subst h1
        exact digitChar_mem _ (Nat.mod_lt _ (by decide))

theorem parseUintLoop_toDigits : ∀ (n : Nat), n ≤ maxUint64 →
    parseUintLoop (Nat.toDigits 10 n) 0 = .ok n := by
  intro n
  induction n using Nat.strong_induction_on with
  | _ n ih =>
    intro hn
    rw [toDigits_eq]
    split_ifs with h
    · rw [parseUintLoop_digitChar n 0 h (by omega)]
      simp [parseUintLoop]
    · rw [parseUintLoop_append _ _ 0 (n / 10) (ih (n / 10) (by omega) (by omega))]
      rw [parseUintLoop_digitChar (n % 10) (n / 10) (Nat.mod_lt _ (by decide)) (by omega)]
      simp only [parseUintLoop]
      congr 1
      omega

theorem digitChars_props : ∀ c ∈ digitChars,
    isSpace c = false ∧ c ≠ ',' ∧ c ≠ '+' ∧ c ≠ '-' := by decide

theorem Atoi_itoa (n : Int) (hn : inRange n) : Atoi (itoa n) = .ok n := by
  unfold inRange minInt maxInt at hn
  have hne := toDigits_ne_nil n.natAbs
  have hp := parseUintLoop_toDigits n.natAbs (by unfold maxUint64; omega)
  unfold itoa
  by_cases hneg : n < 0
  · rw [if_pos hneg]
    simp only [Atoi, ParseUint, true_or, or_true, if_true, if_neg hne, hp]
    rw [if_neg (by simp), if_neg (by simp; omega)]
    congr 1
    omega
  · rw [if_neg hneg]
    cases hd : Nat.toDigits 10 n.natAbs with
    | nil => exact absurd hd hne
    | cons c rest =>
      have hc := digitChars_props c (toDigits_mem n.natAbs c (by rw [hd]; simp))
      rw [hd] at hp
      have hcond : ¬ (c = '+' ∨ c = '-') := by
        rintro (h | h)
        · exact hc.2.2.1 h
        · exact hc.2.2.2 h
      simp only [Atoi, ParseUint, if_neg hcond, hp]
      rw [if_neg (by simp)]
      simp only
      rw [if_neg (by simp; omega), if_neg (by simp [hc.2.2.2]), if_neg hc.2.2.2]
      congr 1
      omega

theorem itoa_ne_nil (n : Int) : itoa n ≠ [] := by
  unfold itoa
  split_ifs
  · simp
  · exact toDigits_ne_nil _

theorem itoa_mem (n : Int) : ∀ c ∈ itoa n, isSpace c = false ∧ c ≠ ',' := by
  intro c hc
  unfold itoa at hc
  have key : ∀ c ∈ Nat.toDigits 10 n.natAbs, isSpace c = false ∧ c ≠ ',' := fun c h =>
    ⟨(digitChars_props c (toDigits_mem _ c h)).1, (digitChars_props c (toDigits_mem _ c h)).2.1⟩
  split_ifs at hc
  · rcases List.mem_cons.1 hc with h | h
    · subst h; decide
    · exact key c h
  · exact key c hc

theorem TrimSpace_eq_self (s : Str) (h : ∀ c ∈ s, isSpace c = false) : TrimSpace s = s := by
  unfold TrimSpace
  have h1 : s.dropWhile isSpace = s := by
    cases s with
    | nil => rfl
    | cons c cs => simp [List.dropWhile, h c (by simp)]
  rw [h1]
  rcases List.eq_nil_or_concat s with h0 | ⟨init, c, h2⟩
  · subst h0; rfl
  · subst h2
    rw [List.concat_eq_append, List.rdropWhile_concat_neg]
    rw [h c (by simp)]
    simp

theorem Split_ne_nil (s : Str) (sep : Char) : Split s sep ≠ [] := by
  induction s with
  | nil => simp [Split]
  | cons c cs ih =>
    simp only [Split]
    split_ifs
    · simp
    · split <;> simp

theorem Split_no_sep (a : Str) (sep : Char) (h : sep ∉ a) : Split a sep = [a] := by
  induction a with
  | nil => rfl
  | cons c cs ih =>
    have hc : c ≠ sep := fun e => h (by rw [e]; simp)
    have hcs : sep ∉ cs := fun e => h (List.mem_cons_of_mem _ e)
    simp [Split, hc, ih hcs]

theorem Split_append_sep (a t : Str) (sep : Char) (h : sep ∉ a) :
    Split (a ++ sep :: t) sep = a :: Split t sep := by
  induction a with
  | nil => simp [Split]
  | cons c cs ih =>
    have hc : c ≠ sep := fun e => h (by rw [e]; simp)
    have hcs : sep ∉ cs := fun e => h (List.mem_cons_of_mem _ e)
    simp [Split, hc, ih hcs]

theorem Split_intercalate (parts : List Str) (sep : Char) (hne : parts ≠ [])
    (h : ∀ p ∈ parts, sep ∉ p) : Split (List.intercalate [sep] parts) sep = parts := by
  induction parts with
  | nil => exact absurd rfl hne
  | cons a rest ih =>
    cases rest with
    | nil =>
      simp only [List.intercalate, List.intersperse, List.flatten, List.append_nil]
      exact Split_no_sep a sep (h a (by simp))
    | cons b rest2 =>
      have e : List.intercalate [sep] (a :: b :: rest2)
          = a ++ sep :: List.intercalate [sep] (b :: rest2) := by
        simp [List.intercalate, List.intersperse]
      rw [e, Split_append_sep a _ sep (h a (by simp)),
        ih (by simp) (fun p hp => h p (List.mem_cons_of_mem _ hp))]

theorem parseIntLoop_itoa (seq out : List Int) (h : ∀ x ∈ seq, inRange x) :
    parseIntLoop (seq.map itoa) out = .ok (out ++ seq) := by
  induction seq generalizing out with
  | nil => simp [parseIntLoop]
  | cons x rest ih =>
    simp only [List.map_cons, parseIntLoop]
    rw [TrimSpace_eq_self (itoa x) (fun c hc => (itoa_mem x c hc).1),
      Atoi_itoa x (h x (by simp))]
    simp only
    rw [ih _ (fun y hy => h y (List.mem_cons_of_mem _ hy))]
    simp


theorem intercalate_cons_cons (sep a b : Str) (rest : List Str) :
    List.intercalate sep (a :: b :: rest) = a ++ sep ++ List.intercalate sep (b :: rest) := by
  simp [List.intercalate, List.intersperse]

theorem intercalate_itoa_mem (seq : List Int) :
    ∀ c ∈ List.intercalate [','] (seq.map itoa), isSpace c = false := by
  induction seq with
  | nil => simp [List.intercalate]
  | cons x rest ih =>
    cases rest with
    | nil =>
      intro c hc
      simp only [List.map_cons, List.map_nil, List.intercalate, List.intersperse, List.flatten,
        List.append_nil] at hc
      exact (itoa_mem x c hc).1
    | cons y rest2 =>
      intro c hc
      simp only [List.map_cons] at hc ih
      rw [intercalate_cons_cons] at hc
      rcases List.mem_append.1 hc with h | h
      · rcases List.mem_append.1 h with h | h
        · exact (itoa_mem x c h).1
        · simp only [List.mem_singleton] at h
          subst h; decide
      · exact ih c h

theorem intercalate_itoa_ne_nil (seq : List Int) (h : seq ≠ []) :
    List.intercalate [','] (seq.map itoa) ≠ [] := by
  cases seq with
  | nil => exact absurd rfl h
  | cons x rest =>
    cases rest with
    | nil =>
      simp only [List.map_cons, List.map_nil, List.intercalate, List.intersperse, List.flatten,
        List.append_nil]
      exact itoa_ne_nil x
    | cons y rest2 =>
      simp only [List.map_cons]
      rw [intercalate_cons_cons]
      simp

theorem parseIntSlice_serialize_ok (seq : List Int) (h : ∀ x ∈ seq, inRange x) :
    parseIntSlice (serialize seq) = .ok seq := by
  have hbody := intercalate_itoa_mem seq
  have hall : ∀ c ∈ serialize seq, isSpace c = false := by
    intro c hc
    unfold serialize at hc
    rcases List.mem_append.1 hc with h1 | h1
    · rcases List.mem_append.1 h1 with h2 | h2
      · simp only [List.mem_singleton] at h2
        subst h2; decide
      · exact hbody c h2
    · simp only [List.mem_singleton] at h1
      subst h1; decide
  unfold parseIntSlice
  rw [TrimSpace_eq_self _ hall]
  have h1 : TrimSuffix (TrimPrefix (serialize seq) ['[']) [']']
      = List.intercalate [','] (seq.map itoa) := by
    unfold serialize TrimPrefix TrimSuffix
    simp
  simp only [h1]
  rw [TrimSpace_eq_self _ hbody]
  by_cases hs : seq = []
  · subst hs
    simp [List.intercalate]
  · rw [if_neg (intercalate_itoa_ne_nil seq hs)]
    rw [Split_intercalate _ ',' (by simpa using hs)
      (fun p hp => by
        obtain ⟨x, _, rfl⟩ := List.mem_map.1 hp
        exact fun hc => (itoa_mem x _ hc).2 rfl)]
    rw [parseIntLoop_itoa seq [] h]
    simp

theorem inorder_length (t : TreeNode) : (inorder t).length = t.size := by
  induction t with
  | nil => rfl
  | node v l r ihl ihr => simp [inorder, TreeNode.size, ihl, ihr]; omega

theorem buildTree_size (vals : List (Option Int)) :
    ∃ t, buildTree vals = some t ∧
      t.size = match vals with
        | [] => 0
        | none :: _ => 0
        | some _ :: rest => 1 + attached 1 rest := by
  cases vals with
  | nil => exact ⟨.nil, by simp [buildTree], rfl⟩
  | cons a rest =>
    cases a with
    | none => exact ⟨.nil, by simp [buildTree], rfl⟩
    | some v =>
      have hq : QueueOk (.node v .nil .nil) [[]] :=
        ⟨by simp, fun p hp => by
          simp only [List.mem_singleton] at hp
          subst hp
          exact ⟨v, rfl⟩⟩
      obtain ⟨t, ht, hsz⟩ := buildLoop_size (some v :: rest) _ (.node v .nil .nil) [[]] 1
        (le_refl _) hq
      refine ⟨t, by simp [buildTree, ht], ?_⟩
      rw [hsz]
      simp [TreeNode.size]

theorem countPresent_cons (a : Option Int) (rest : List (Option Int)) :
    countPresent (a :: rest) = present a + countPresent rest := by
  simp [countPresent]

theorem countPresent_eq_zero_iff (rest : List (Option Int)) :
    countPresent rest = 0 ↔ rest.all (fun a => a.isNone) = true := by
  induction rest with
  | nil => simp [countPresent]
  | cons a rest ih =>
    rw [countPresent_cons]
    cases a <;> simp [present, ih]

theorem attached_le : ∀ (n q : Nat) (rest : List (Option Int)), rest.length ≤ n →
    attached q rest ≤ countPresent rest := by
  intro n
  induction n with
  | zero =>
    intro q rest h
    have : rest = [] := List.length_eq_zero.1 (by omega)
    subst this
    cases q <;> simp [attached]
  | succ n ih =>
    intro q rest h
    cases q with
    | zero => simp [attached]
    | succ q =>
      match rest, h with
      | [], _ => simp [attached]
      | [a], _ => simp [attached, countPresent]
      | a :: b :: rest2, h =>
        simp only [attached, countPresent_cons]
        have := ih (q + present a + present b) rest2 (by simp at h; omega)
        omega

theorem attached_eq_iff : ∀ (n q : Nat) (rest : List (Option Int)), rest.length ≤ n →
    (attached q rest = countPresent rest ↔ slotsOk q rest = true) := by
  intro n
  induction n with
  | zero =>
    intro q rest h
    have : rest = [] := List.length_eq_zero.1 (by omega)
    subst this
    cases q <;> simp [attached, slotsOk, countPresent]
  | succ n ih =>
    intro q rest h
    cases q with
    | zero =>
      simp only [attached, slotsOk]
      rw [← countPresent_eq_zero_iff]
      exact eq_comm
    | succ q =>
      match rest, h with
      | [], _ => simp [attached, slotsOk, countPresent]
      | [a], _ => simp [attached, slotsOk, countPresent]
      | a :: b :: rest2, h =>
        simp only [attached, slotsOk, countPresent_cons]
        rw [← ih (q + present a + present b) rest2 (by simp at h; omega)]
        omega

theorem buildTree_size_le (vals : List (Option Int)) :
    ∃ t, buildTree vals = some t ∧ t.size ≤ countPresent vals ∧
      (t.size = countPresent vals ↔ levelOrderOk vals = true) := by
  obtain ⟨t, ht, hsz⟩ := buildTree_size vals
  refine ⟨t, ht, ?_⟩
  match vals, hsz with
  | [], hsz => simp [hsz, countPresent, levelOrderOk]
  | none :: rest, hsz =>
    simp only at hsz
    rw [hsz, countPresent_cons]
    simp only [present, Option.isSome_none, Bool.false_eq_true, if_false, zero_add, levelOrderOk]
    refine ⟨Nat.zero_le _, ?_⟩
    rw [← countPresent_eq_zero_iff]
    exact eq_comm
  | some v :: rest, hsz =>
    simp only at hsz
    rw [hsz, countPresent_cons]
    simp only [present, Option.isSome_some, if_true, levelOrderOk]
    have h1 := attached_le _ 1 rest (le_refl _)
    have h2 := attached_eq_iff _ 1 rest (le_refl _)
    refine ⟨by omega, ?_⟩
    rw [← h2]
    omega

theorem allVals_mem (p : Int → Bool) (t : TreeNode) (h : allVals p t = true) :
    ∀ x ∈ inorder t, p x = true := by
  induction t with
  | nil => simp [inorder]
  | node v l r ihl ihr =>
    simp only [allVals, Bool.and_eq_true] at h
    intro x hx
    simp only [inorder, List.mem_append, List.mem_singleton] at hx
    rcases hx with (hx | hx) | hx
    · exact ihl h.1.2 x hx
    · rw [hx]; exact h.1.1
    · exact ihr h.2 x hx

theorem inorder_sorted (t : TreeNode) (h : isBST t = true) :
    (inorder t).Pairwise (fun a b => a ≤ b) := by
  induction t with
  | nil => simp [inorder]
  | node v l r ihl ihr =>
    simp only [isBST, Bool.and_eq_true] at h
    obtain ⟨⟨⟨hl, hr⟩, hbl⟩, hbr⟩ := h
    have hle : ∀ x ∈ inorder l, x ≤ v := fun x hx => by
      simpa using allVals_mem _ l hl x hx
    have hge : ∀ x ∈ inorder r, v ≤ x := fun x hx => by
      simpa using allVals_mem _ r hr x hx
    simp only [inorder, List.append_assoc, List.singleton_append]
    rw [List.pairwise_append]
    refine ⟨ihl hbl, ?_, ?_⟩
    · rw [List.pairwise_cons]
      exact ⟨hge, ihr hbr⟩
    · intro a ha b hb
      rcases List.mem_cons.1 hb with hb | hb
      · rw [hb]; exact hle a ha
      · exact le_trans (hle a ha) (hge b hb)

/-! ## The comparator and the tally -/

theorem equalSlices_iff_eq (a b : List Int) : equalSlices a b = true ↔ a = b := by
  unfold equalSlices
  constructor
  · intro h
    by_cases hl : a.length = b.length
    · rw [if_neg (by simpa using hl)] at h
      rw [List.all_eq_true] at h
      apply List.ext_getElem?
      intro i
      by_cases hi : i < a.length
      · simpa using h i (List.mem_range.2 hi)
      · rw [List.getElem?_eq_none (by omega), List.getElem?_eq_none (by omega)]
    · rw [if_pos (by simpa using hl)] at h
      cases h
  · intro h
    subst h
    simp

theorem isParseError_not_passed (r : CaseRecord) (h : r.isParseError = true) :
    r.passed = false := by
  cases r <;> simp_all [CaseRecord.isParseError, CaseRecord.passed]

theorem mainLoop_spec (runCase : List Str → Option CaseRecord) (passes : List Str → Bool) :
    ∀ (rows : List (List Str)) (passed : Nat) (records : List CaseRecord),
      (∀ row ∈ rows, ∃ r, runCase row = some r ∧ r.passed = passes row) →
      ∃ rs, mainLoop runCase rows passed records
          = some (passed + rows.countP passes, records ++ rs) ∧
        List.Forall₂ (fun row r => runCase row = some r) rows rs := by
  intro rows
  induction rows with
  | nil =>
    intro passed records _
    exact ⟨[], by simp [mainLoop], List.Forall₂.nil⟩
  | cons row rows ih =>
    intro passed records h
    obtain ⟨r, hr, hp⟩ := h row (List.mem_cons_self _ _)
    obtain ⟨rs, hrs, hall⟩ := ih (if r.passed then passed + 1 else passed) (records ++ [r])
      (fun row2 h2 => h row2 (List.mem_cons_of_mem _ h2))
    refine ⟨r :: rs, ?_, List.Forall₂.cons hr hall⟩
    simp only [mainLoop, hr, hrs, List.countP_cons, List.append_assoc, List.singleton_append]
    rw [hp]
    cases passes row
    · simp
    · simp; omega

theorem mainTally_spec (runCase : List Str → Option CaseRecord)
    (passes fails : List Str → Bool) (rows : List (List Str))
    (h : ∀ row ∈ rows, ∃ r, runCase row = some r ∧ r.passed = passes row ∧
      (fails row = true → r.isParseError = true)) :
    ∃ t, mainTally runCase rows = some t ∧ tallyOk passes fails rows t := by
  obtain ⟨rs, hrs, hall⟩ := mainLoop_spec runCase passes rows 0 []
    (fun row hrow => by
      obtain ⟨r, h1, h2, _⟩ := h row hrow
      exact ⟨r, h1, h2⟩)
  have hlen : rows.length = rs.length := hall.length_eq
  refine ⟨⟨rows.countP passes, rows.length, rs⟩, ?_, rfl, rfl, List.countP_le_length _, ?_, ?_⟩
  · simp [mainTally, hrs]
  · exact hlen.symm
  · intro k hk hf
    have hk2 : k < rs.length := by omega
    have hget := (List.forall₂_iff_get.1 hall).2 k hk hk2
    have hrow : rows.getD k [] = rows.get ⟨k, hk⟩ := by
      rw [List.getD_eq_getElem _ _ hk]; rfl
    obtain ⟨r, h1, _, h3⟩ := h (rows.get ⟨k, hk⟩) (List.get_mem _ _ _)
    rw [h1] at hget
    simp only [Option.some.injEq] at hget
    rw [hrow] at hf
    refine ⟨rs.get ⟨k, hk2⟩, by simp [List.getElem?_eq_getElem hk2], ?_, ?_⟩
    · rw [← hget]; exact h3 hf
    · rw [← hget]; exact isParseError_not_passed r (h3 hf)

theorem field_of_length (row : List Str) (k : Nat) (h : k < row.length) :
    field row k = some (row.getD k []) := by
  simp [field, List.getD_eq_getElem _ _ h, List.getElem?_eq_getElem h]

theorem equalSlices_and_iff (a b c : List Int) :
    (equalSlices a b && equalSlices b c) = decide (a = b ∧ b = c) := by
  rw [Bool.eq_iff_iff]
  simp only [Bool.and_eq_true, equalSlices_iff_eq, decide_eq_true_eq]

theorem twoSumCase_spec (TwoSum : List Int → Int → Option (List Int) × List Int)
    (row : List Str) (h : row.length = 3)
    (hkeep : ∀ nums target, parseInput (row.getD 1 []) = .ok (nums, target) →
      (TwoSum nums target).2 = nums) :
    ∃ r, twoSumCase TwoSum row = some r ∧ r.passed = twoSumRowPasses TwoSum row ∧
      (twoSumRowFails row = true → r.isParseError = true) := by
  unfold twoSumCase twoSumRowPasses twoSumRowFails
  rw [field_of_length row 1 (by omega), field_of_length row 2 (by omega)]
  simp only
  cases h1 : parseInput (row.getD 1 []) with
  | error e => exact ⟨_, rfl, rfl, fun _ => rfl⟩
  | ok p =>
    obtain ⟨nums, target⟩ := p
    have hk := hkeep nums target h1
    cases h2 : parseIntSlice (row.getD 2 []) with
    | error e => exact ⟨_, rfl, rfl, fun _ => rfl⟩
    | ok expected =>
      refine ⟨_, rfl, ?_, fun hf => ?_⟩
      · simp only [CaseRecord.passed, hk]
        exact equalSlices_and_iff _ _ _
      · simp [Except.toBool] at hf

theorem listCase_spec (ReverseList : ListNode → ListNode) (row : List Str)
    (h : row.length = 3) :
    ∃ r, listCase ReverseList row = some r ∧ r.passed = listRowPasses ReverseList row ∧
      (listRowFails row = true → r.isParseError = true) := by
  unfold listCase listRowPasses listRowFails
  rw [field_of_length row 1 (by omega), field_of_length row 2 (by omega)]
  simp only
  cases h1 : parseInputList (row.getD 1 []) with
  | error e => exact ⟨_, rfl, rfl, fun _ => rfl⟩
  | ok inputVals =>
    cases h2 : parseIntSlice (row.getD 2 []) with
    | error e => exact ⟨_, rfl, rfl, fun _ => rfl⟩
    | ok expected =>
      refine ⟨_, rfl, ?_, fun hf => ?_⟩
      · simp only [CaseRecord.passed]
        exact equalSlices_and_iff _ _ _
      · simp [Except.toBool] at hf

theorem treeCase_spec (InorderTraversal : TreeNode → Option (List Int)) (row : List Str)
    (h : row.length = 3) :
    ∃ r, treeCase InorderTraversal row = some r ∧
      r.passed = treeRowPasses InorderTraversal row ∧
      (treeRowFails row = true → r.isParseError = true) := by
  unfold treeCase treeRowPasses treeRowFails
  rw [field_of_length row 1 (by omega), field_of_length row 2 (by omega)]
  simp only
  cases h1 : parseTreeInput (row.getD 1 []) with
  | error e => exact ⟨_, rfl, rfl, fun _ => rfl⟩
  | ok nodes =>
    cases h2 : parseIntSlice (row.getD 2 []) with
    | error e => exact ⟨_, rfl, rfl, fun _ => rfl⟩
    | ok expected =>
      obtain ⟨t, ht, _⟩ := buildTree_size nodes
      simp only [ht, InorderTraversalSolution_eq, Option.map_some', Option.some_bind,
        Option.some.injEq]
      refine ⟨_, rfl, ?_, fun hf => ?_⟩
      · simp only [CaseRecord.passed]
        exact equalSlices_and_iff _ _ _
      · simp [Except.toBool] at hf

/-! ## buildList builds the chain of its values -/

theorem setTailNext_nil (h : ListNode) : setTailNext h .nil = h := by
  induction h with
  | nil => rfl
  | node v next ih => simp [setTailNext, ih]

theorem setTailNext_assoc (h a b : ListNode) :
    setTailNext (setTailNext h a) b = setTailNext h (setTailNext a b) := by
  induction h with
  | nil => rfl
  | node v next ih => simp [setTailNext, ih]

theorem buildList_foldl_eq (vals : List Int) (h : ListNode) :
    vals.foldl
      (fun head v =>
        match head with
        | .nil => .node v .nil
        | .node w next => setTailNext (.node w next) (.node v .nil)) h
      = setTailNext h (chainOf vals) := by
  induction vals generalizing h with
  | nil => simp [chainOf, setTailNext_nil]
  | cons v rest ih =>
    simp only [List.foldl_cons]
    rw [ih]
    cases h with
    | nil => simp [setTailNext, chainOf]
    | node w next =>
      simp only
      rw [setTailNext_assoc]
      simp [setTailNext, chainOf]

theorem buildList_eq_chainOf (vals : List Int) : buildList vals = chainOf vals := by
  unfold buildList
  rw [buildList_foldl_eq]
  rfl

/-! ## buildTree returns, and returns nil only for an absent root -/

theorem buildTree_eq_nil_iff (vals : List (Option Int)) (t : TreeNode)
    (h : buildTree vals = some t) :
    t = .nil ↔ (vals = [] ∨ vals.head? = some none) := by
  obtain ⟨t2, ht2, hsz⟩ := buildTree_size vals
  rw [h] at ht2
  cases ht2
  match vals, hsz with
  | [], hsz =>
    simp only [true_or, iff_true]
    cases t with
    | nil => rfl
    | node v l r => simp [TreeNode.size] at hsz
  | none :: rest, hsz =>
    simp only [List.head?_cons, or_true, iff_true]
    cases t with
    | nil => rfl
    | node v l r => simp [TreeNode.size] at hsz
  | some v :: rest, hsz =>
    simp only [reduceCtorEq, List.head?_cons, Option.some.injEq, or_self, iff_false]
    intro e
    rw [e] at hsz
    simp [TreeNode.size] at hsz
    omega

theorem pushLeft_ne_nil (curr : TreeNode) (stack : List TreeNode)
    (h : curr ≠ .nil ∨ stack.length > 0) : pushLeft curr stack ≠ [] := by
  rw [pushLeft_eq]
  rcases h with h | h
  · cases curr with
    | nil => exact absurd rfl h
    | node v l r => simp [spine]
  · intro e
    have : stack = [] := (List.append_eq_nil.1 e).1
    simp [this] at h

theorem inorder_eq_nil_iff (t : TreeNode) : inorder t = [] ↔ t = .nil := by
  cases t with
  | nil => simp [inorder]
  | node v l r => simp [inorder]

/-! ## The parsers on empty, labelled and malformed literals -/

theorem parseIntSlice_eq (s : Str) :
    parseIntSlice s =
      if TrimSpace (sliceBody s) = [] then .ok []
      else parseIntLoop (Split (sliceBody s) ',') [] := rfl

theorem parseTreeInput_eq (s : Str) :
    parseTreeInput s =
      if TrimSpace (treeBody s) = [] then .ok []
      else parseTreeLoop (Split (treeBody s) ',') [] := rfl

theorem Split_length (s : Str) (sep : Char) : (Split s sep).length = s.count sep + 1 := by
  induction s with
  | nil => simp [Split]
  | cons c cs ih =>
    simp only [Split]
    by_cases h : c = sep
    · subst h
      simp [ih]
    · rw [if_neg h, List.count_cons_of_ne (fun e => h e.symm)]
      cases hs : Split cs sep with
      | nil => exact absurd hs (Split_ne_nil cs sep)
      | cons a t =>
        rw [hs] at ih
        simpa using ih

theorem dropWhile_allSpace_append (w rest : Str) (c : Char) (hw : allSpace w = true)
    (hc : isSpace c = false) : (w ++ c :: rest).dropWhile isSpace = c :: rest := by
  induction w with
  | nil => simp [List.dropWhile, hc]
  | cons a w ih =>
    simp only [allSpace, List.all_cons, Bool.and_eq_true] at hw
    simp only [List.cons_append, List.dropWhile, hw.1]
    exact ih hw.2

theorem dropWhile_allSpace (w : Str) (hw : allSpace w = true) : w.dropWhile isSpace = [] := by
  induction w with
  | nil => rfl
  | cons a w ih =>
    simp only [allSpace, List.all_cons, Bool.and_eq_true] at hw
    simp only [List.dropWhile, hw.1]
    exact ih hw.2

theorem allSpace_reverse (w : Str) (hw : allSpace w = true) : allSpace w.reverse = true := by
  simp only [allSpace, List.all_eq_true] at hw ⊢
  intro x hx
  exact hw x (List.mem_reverse.1 hx)

theorem TrimSpace_allSpace (w : Str) (hw : allSpace w = true) : TrimSpace w = [] := by
  simp [TrimSpace, dropWhile_allSpace w hw, List.rdropWhile]

/-- Trimming removes white space around a text that starts with `c` and ends with `d`,
neither of them a space. -/
theorem TrimSpace_strip (w1 w3 mid : Str) (c d : Char) (h1 : allSpace w1 = true)
    (h3 : allSpace w3 = true) (hc : isSpace c = false) (hd : isSpace d = false) :
    TrimSpace (w1 ++ c :: (mid ++ d :: w3)) = c :: (mid ++ [d]) := by
  unfold TrimSpace
  rw [dropWhile_allSpace_append w1 _ c h1 hc]
  unfold List.rdropWhile
  have hr : (c :: (mid ++ d :: w3)).reverse = w3.reverse ++ d :: (mid.reverse ++ [c]) := by
    simp
  rw [hr, dropWhile_allSpace_append _ _ d (allSpace_reverse w3 h3) hd]
  simp

theorem TrimSpace_strip_one (w1 w3 : Str) (c : Char) (h1 : allSpace w1 = true)
    (h3 : allSpace w3 = true) (hc : isSpace c = false) :
    TrimSpace (w1 ++ c :: w3) = [c] := by
  unfold TrimSpace
  rw [dropWhile_allSpace_append w1 _ c h1 hc]
  unfold List.rdropWhile
  have hr : (c :: w3).reverse = w3.reverse ++ [c] := by simp
  rw [hr, dropWhile_allSpace_append _ _ c (allSpace_reverse w3 h3) hc]
  simp

theorem sliceBody_brackets (w1 w2 w3 : Str) (h1 : allSpace w1 = true)
    (h3 : allSpace w3 = true) : sliceBody (w1 ++ '[' :: (w2 ++ ']' :: w3)) = w2 := by
  unfold sliceBody
  rw [TrimSpace_strip w1 w3 w2 '[' ']' h1 h3 (by decide) (by decide)]
  simp [TrimPrefix, TrimSuffix]

theorem parseIntSlice_brackets (w1 w2 w3 : Str) (h1 : allSpace w1 = true)
    (h2 : allSpace w2 = true) (h3 : allSpace w3 = true) :
    parseIntSlice (w1 ++ '[' :: (w2 ++ ']' :: w3)) = .ok [] := by
  rw [parseIntSlice_eq, sliceBody_brackets w1 w2 w3 h1 h3, TrimSpace_allSpace w2 h2]
  rfl

theorem parseIntSlice_allSpace (w : Str) (h : allSpace w = true) :
    parseIntSlice w = .ok [] := by
  rw [parseIntSlice_eq]
  unfold sliceBody
  rw [TrimSpace_allSpace w h]
  rfl

theorem parseInputList_brackets (w1 w4 w2 w3 : Str) (h1 : allSpace w1 = true)
    (h4 : allSpace w4 = true) (h2 : allSpace w2 = true) (h3 : allSpace w3 = true) :
    parseInputList (w1 ++ ("head=".toList ++ (w4 ++ '[' :: (w2 ++ ']' :: w3)))) = .ok [] := by
  have hs : w1 ++ ("head=".toList ++ (w4 ++ '[' :: (w2 ++ ']' :: w3)))
      = w1 ++ 'h' :: ((['e', 'a', 'd', '='] ++ w4 ++ '[' :: w2) ++ ']' :: w3) := by
    simp [String.toList]
  unfold parseInputList
  rw [hs, TrimSpace_strip w1 w3 _ 'h' ']' h1 h3 (by decide) (by decide)]
  have hp : TrimPrefix ('h' :: ((['e', 'a', 'd', '='] ++ w4 ++ '[' :: w2) ++ [']']))
      "head=".toList = w4 ++ '[' :: (w2 ++ ']' :: []) := by
    simp [TrimPrefix, String.toList]
  rw [hp]
  exact parseIntSlice_brackets w4 w2 [] h4 h2 rfl

theorem parseTreeInput_brackets (w1 w2 w3 : Str) (h1 : allSpace w1 = true)
    (h2 : allSpace w2 = true) (h3 : allSpace w3 = true) :
    parseTreeInput (w1 ++ ("root=[".toList ++ (w2 ++ ']' :: w3))) = .ok [] ∧
    parseTreeInput (w1 ++ '[' :: (w2 ++ ']' :: w3)) = .ok [] := by
  have hs : w1 ++ ("root=[".toList ++ (w2 ++ ']' :: w3))
      = w1 ++ 'r' :: ((['o', 'o', 't', '=', '['] ++ w2) ++ ']' :: w3) := by
    simp [String.toList]
  refine ⟨?_, ?_⟩
  · rw [parseTreeInput_eq]
    unfold treeBody
    rw [hs, TrimSpace_strip w1 w3 _ 'r' ']' h1 h3 (by decide) (by decide)]
    have hb : TrimSuffix (TrimPrefix (TrimPrefix ('r' :: ((['o', 'o', 't', '=', '['] ++ w2) ++ [']']))
        "root=".toList) ['[']) [']'] = w2 := by
      simp [TrimPrefix, TrimSuffix, String.toList]
    rw [hb, TrimSpace_allSpace w2 h2]
    rfl
  · rw [parseTreeInput_eq]
    unfold treeBody
    rw [TrimSpace_strip w1 w3 w2 '[' ']' h1 h3 (by decide) (by decide)]
    have hb : TrimSuffix (TrimPrefix (TrimPrefix ('[' :: (w2 ++ [']']))
        "root=".toList) ['[']) [']'] = w2 := by
      simp [TrimPrefix, TrimSuffix, String.toList]
    rw [hb, TrimSpace_allSpace w2 h2]
    rfl

theorem parseTreeInput_allSpace (w : Str) (h : allSpace w = true) :
    parseTreeInput w = .ok [] := by
  rw [parseTreeInput_eq]
  unfold treeBody
  rw [TrimSpace_allSpace w h]
  rfl

theorem parseInputList_allSpace (w : Str) (h : allSpace w = true) :
    parseInputList w = .ok [] := by
  unfold parseInputList
  rw [TrimSpace_allSpace w h]
  rfl

theorem char_eq_of_toNat (c d : Char) (h : c.toNat = d.toNat) : c = d := by
  rw [← Char.ofNat_toNat c, ← Char.ofNat_toNat d, h]

theorem foldChar_upper (c : Char) (hc : 'A' ≤ c ∧ c ≤ 'Z') :
    (foldChar c).toNat = c.toNat + 32 := by
  have hr : 65 ≤ c.toNat ∧ c.toNat ≤ 90 := hc
  have he : c = Char.ofNat c.toNat := (Char.ofNat_toNat c).symm
  generalize c.toNat = n at hr he
  subst he
  obtain ⟨h1, h2⟩ := hr
  interval_cases n <;> decide

theorem foldChar_eq_iff (c lo up : Char) (hlo : lo.toNat = up.toNat + 32)
    (hup : 'A' ≤ up ∧ up ≤ 'Z') : foldChar c = lo ↔ (c = lo ∨ c = up) := by
  have hU : 65 ≤ up.toNat ∧ up.toNat ≤ 90 := hup
  by_cases hc : 'A' ≤ c ∧ c ≤ 'Z'
  · have hC : 65 ≤ c.toNat ∧ c.toNat ≤ 90 := hc
    have hf := foldChar_upper c hc
    constructor
    · intro h
      right
      apply char_eq_of_toNat
      rw [h] at hf
      omega
    · rintro (h | h)
      · rw [h] at hC; omega
      · apply char_eq_of_toNat
        rw [hf, h, hlo]
  · have hf : foldChar c = c := by unfold foldChar; rw [if_neg hc]
    rw [hf]
    constructor
    · exact Or.inl
    · rintro (h | h)
      · exact h
      · rw [h] at hc; exact absurd hup hc

theorem EqualFold_null (t : Str) :
    EqualFold t "null".toList = true ↔
      ∃ a b c d, t = [a, b, c, d] ∧ (a = 'n' ∨ a = 'N') ∧ (b = 'u' ∨ b = 'U') ∧
        (c = 'l' ∨ c = 'L') ∧ (d = 'l' ∨ d = 'L') := by
  have hw : ("null".toList).map foldChar = ['n', 'u', 'l', 'l'] := by decide
  unfold EqualFold
  rw [hw, decide_eq_true_iff]
  constructor
  · intro h
    have hl : t.length = 4 := by
      have := congrArg List.length h
      simpa using this
    rcases t with _ | ⟨a, _ | ⟨b, _ | ⟨c, _ | ⟨d, _ | ⟨e, r⟩⟩⟩⟩⟩ <;> simp at hl
    · simp only [List.map_cons, List.map_nil, List.cons.injEq, and_true] at h
      exact ⟨a, b, c, d, rfl,
        (foldChar_eq_iff a 'n' 'N' (by decide) (by decide)).1 h.1,
        (foldChar_eq_iff b 'u' 'U' (by decide) (by decide)).1 h.2.1,
        (foldChar_eq_iff c 'l' 'L' (by decide) (by decide)).1 h.2.2.1,
        (foldChar_eq_iff d 'l' 'L' (by decide) (by decide)).1 h.2.2.2⟩
  · rintro ⟨a, b, c, d, rfl, ha, hb, hc, hd⟩
    simp only [List.map_cons, List.map_nil]
    rw [(foldChar_eq_iff a 'n' 'N' (by decide) (by decide)).2 ha,
      (foldChar_eq_iff b 'u' 'U' (by decide) (by decide)).2 hb,
      (foldChar_eq_iff c 'l' 'L' (by decide) (by decide)).2 hc,
      (foldChar_eq_iff d 'l' 'L' (by decide) (by decide)).2 hd]

theorem EqualFold_null_eq (t : Str) : EqualFold t "null".toList = isNullWord t := by
  cases h : isNullWord t with
  | true =>
    rw [EqualFold_null]
    unfold isNullWord at h
    split at h
    · rename_i a b c d
      exact ⟨a, b, c, d, rfl, of_decide_eq_true h⟩
    · cases h
  | false =>
    cases h2 : EqualFold t "null".toList with
    | false => rfl
    | true =>
      obtain ⟨a, b, c, d, rfl, hh⟩ := (EqualFold_null t).1 h2
      simp only [isNullWord, decide_eq_false_iff_not] at h
      exact absurd hh h

theorem Atoi_error (s : Str) (e : NumError) (h : Atoi s = .error e) :
    e.Num = s ∧ e.Func = "Atoi".toList := by
  unfold Atoi at h
  split at h
  · cases h; exact ⟨rfl, rfl⟩
  · simp only at h
    split at h
    · cases h; exact ⟨rfl, rfl⟩
    · split_ifs at h <;> cases h <;> exact ⟨rfl, rfl⟩

theorem Atoi_nondigit (c : Char) (rest : Str) (h1 : c ≠ '+') (h2 : c ≠ '-')
    (h3 : ¬ ('0' ≤ c ∧ c ≤ '9')) : ∃ e, Atoi (c :: rest) = .error e := by
  simp [Atoi, ParseUint, parseUintLoop, h1, h2, h3]

theorem Atoi_nullWord (t : Str) (h : isNullWord t = true) : ∃ e, Atoi t = .error e := by
  unfold isNullWord at h
  split at h
  · rename_i a b c d
    have ha := (of_decide_eq_true h).1
    rcases ha with ha | ha <;> subst ha <;>
      exact Atoi_nondigit _ _ (by decide) (by decide) (by decide)
  · cases h

theorem parseIntLoop_error_first (pre post : List Str) (v : Str) (out : List Int)
    (e : NumError) (hpre : ∀ u ∈ pre, ∃ n, Atoi (TrimSpace u) = .ok n)
    (hv : Atoi (TrimSpace v) = .error e) :
    parseIntLoop (pre ++ v :: post) out = .error e := by
  induction pre generalizing out with
  | nil => simp [parseIntLoop, hv]
  | cons u pre ih =>
    obtain ⟨n, hn⟩ := hpre u (by simp)
    simp only [List.cons_append, parseIntLoop, hn]
    exact ih _ (fun w hw => hpre w (List.mem_cons_of_mem _ hw))

theorem parseIntLoop_error_mem (raw : List Str) (out : List Int)
    (h : ∃ v ∈ raw, ∃ e, Atoi (TrimSpace v) = .error e) :
    ∃ e, parseIntLoop raw out = .error e := by
  induction raw generalizing out with
  | nil => simp at h
  | cons u raw ih =>
    simp only [parseIntLoop]
    cases hu : Atoi (TrimSpace u) with
    | error e => exact ⟨e, rfl⟩
    | ok n =>
      obtain ⟨v, hv, e, he⟩ := h
      rcases List.mem_cons.1 hv with hv | hv
      · subst hv; rw [hu] at he; cases he
      · exact ih _ ⟨v, hv, e, he⟩

theorem parseTreeLoop_error_first (pre post : List Str) (v : Str)
    (out : List (Option Int)) (e : NumError) (hpre : ∀ u ∈ pre, elemValue u ≠ none)
    (hnull : isNullWord (TrimSpace v) = false) (hv : Atoi (TrimSpace v) = .error e) :
    parseTreeLoop (pre ++ v :: post) out = .error e := by
  induction pre generalizing out with
  | nil =>
    simp only [List.nil_append, parseTreeLoop, EqualFold_null_eq, hnull, hv]
    rfl
  | cons u pre ih =>
    have hu := hpre u (by simp)
    simp only [List.cons_append, parseTreeLoop, EqualFold_null_eq]
    unfold elemValue at hu
    by_cases hn : isNullWord (TrimSpace u) = true
    · rw [if_pos hn]
      exact ih _ (fun w hw => hpre w (List.mem_cons_of_mem _ hw))
    · rw [if_neg hn] at hu ⊢
      cases ha : Atoi (TrimSpace u) with
      | error e2 => rw [ha] at hu; exact absurd rfl hu
      | ok n =>
        simp only
        exact ih _ (fun w hw => hpre w (List.mem_cons_of_mem _ hw))

theorem parseTreeLoop_ok (raw : List Str) (out : List (Option Int))
    (h : ∀ v ∈ raw, elemValue v ≠ none) :
    parseTreeLoop raw out = .ok (out ++ raw.map (fun v => (elemValue v).getD none)) := by
  induction raw generalizing out with
  | nil => simp [parseTreeLoop]
  | cons u raw ih =>
    have hu := h u (by simp)
    have hrest := fun w hw => h w (List.mem_cons_of_mem u hw)
    simp only [parseTreeLoop, EqualFold_null_eq, List.map_cons]
    unfold elemValue at hu
    by_cases hn : isNullWord (TrimSpace u) = true
    · rw [if_pos hn, ih _ hrest]
      simp [elemValue, hn]
    · rw [if_neg hn] at hu ⊢
      cases ha : Atoi (TrimSpace u) with
      | error e2 => rw [ha] at hu; exact absurd rfl hu
      | ok n =>
        simp only
        rw [ih _ hrest]
        simp [elemValue, hn, ha]

theorem rdropWhile_cons_neg (c : Char) (rest : Str) (hc : isSpace c = false) :
    (c :: rest).rdropWhile isSpace = c :: rest.rdropWhile isSpace := by
  induction rest using List.reverseRecOn with
  | nil => simp [List.rdropWhile, hc]
  | append_singleton l x ih =>
    rw [← List.cons_append]
    by_cases hx : isSpace x = true
    · rw [List.rdropWhile_concat_pos _ _ _ hx, List.rdropWhile_concat_pos _ _ _ hx, ih]
    · rw [List.rdropWhile_concat_neg _ _ _ hx, List.rdropWhile_concat_neg _ _ _ hx]
      rfl

theorem TrimSpace_cons (c : Char) (rest : Str) (hc : isSpace c = false) :
    TrimSpace (c :: rest) = c :: rest.rdropWhile isSpace := by
  unfold TrimSpace
  simp only [List.dropWhile, hc]
  exact rdropWhile_cons_neg c rest hc

theorem elements_eq (body : Str) (h : elements body ≠ []) :
    TrimSpace body ≠ [] ∧ elements body = Split body ',' := by
  unfold elements at h ⊢
  by_cases hb : TrimSpace body = []
  · rw [if_pos hb] at h; exact absurd rfl h
  · exact ⟨hb, by rw [if_neg hb]⟩

theorem parseIntSlice_error_first (s : Str) (pre post : List Str) (v : Str) (e : NumError)
    (hel : elements (sliceBody s) = pre ++ v :: post)
    (hpre : ∀ u ∈ pre, ∃ n, Atoi (TrimSpace u) = .ok n)
    (hv : Atoi (TrimSpace v) = .error e) : parseIntSlice s = .error e := by
  obtain ⟨hne, heq⟩ := elements_eq (sliceBody s) (by rw [hel]; simp)
  rw [parseIntSlice_eq, if_neg hne, ← heq, hel]
  exact parseIntLoop_error_first pre post v [] e hpre hv

theorem parseTreeInput_error_first (s : Str) (pre post : List Str) (v : Str) (e : NumError)
    (hel : elements (treeBody s) = pre ++ v :: post)
    (hpre : ∀ u ∈ pre, elemValue u ≠ none)
    (hnull : isNullWord (TrimSpace v) = false)
    (hv : Atoi (TrimSpace v) = .error e) : parseTreeInput s = .error e := by
  obtain ⟨hne, heq⟩ := elements_eq (treeBody s) (by rw [hel]; simp)
  rw [parseTreeInput_eq, if_neg hne, ← heq, hel]
  exact parseTreeLoop_error_first pre post v [] e hpre hnull hv

theorem parseTreeInput_ok (s : Str) (h : ∀ v ∈ elements (treeBody s), elemValue v ≠ none) :
    parseTreeInput s
      = .ok ((elements (treeBody s)).map (fun v => (elemValue v).getD none)) := by
  rw [parseTreeInput_eq]
  unfold elements at h ⊢
  by_cases hb : TrimSpace (treeBody s) = []
  · simp [hb]
  · rw [if_neg hb] at h
    rw [if_neg hb, if_neg hb, parseTreeLoop_ok _ [] h]
    simp

theorem TrimSuffix_cons (c : Char) (rest suf : Str) (h : suf.length ≤ rest.length) :
    ∃ rest2, TrimSuffix (c :: rest) suf = c :: rest2 := by
  unfold TrimSuffix
  split_ifs
  · refine ⟨rest.take (rest.length - suf.length), ?_⟩
    have : (c :: rest).length - suf.length = (rest.length - suf.length) + 1 := by
      simp; omega
    rw [this, List.take_succ_cons]
  · exact ⟨rest, rfl⟩

theorem Split_cons_neg (c : Char) (rest : Str) (sep : Char) (h : c ≠ sep) :
    ∃ hd tl, Split (c :: rest) sep = (c :: hd) :: tl := by
  simp only [Split, if_neg h]
  cases hs : Split rest sep with
  | nil => exact absurd hs (Split_ne_nil rest sep)
  | cons a t => exact ⟨a, t, rfl⟩

theorem parseIntSlice_rejects_null (s : Str)
    (h : ∃ v ∈ elements (treeBody s), isNullWord (TrimSpace v) = true) :
    ∃ e, parseIntSlice s = .error e := by
  obtain ⟨v, hv, hnull⟩ := h
  by_cases hp : ("root=".toList).isPrefixOf (TrimSpace s) = true
  · -- the label is not stripped by `parseIntSlice`: its first element starts with `r`
    have hpre : "root=".toList <+: TrimSpace s := List.isPrefixOf_iff_prefix.1 hp
    obtain ⟨t1, ht1⟩ := hpre
    have ht : TrimSpace s = 'r' :: ('o' :: 'o' :: 't' :: '=' :: t1) := by
      rw [← ht1]; rfl
    have hb : ∃ rest2, sliceBody s = 'r' :: rest2 := by
      unfold sliceBody
      rw [ht]
      have : TrimPrefix ('r' :: ('o' :: 'o' :: 't' :: '=' :: t1)) ['[']
          = 'r' :: ('o' :: 'o' :: 't' :: '=' :: t1) := by
        simp [TrimPrefix]
      rw [this]
      exact TrimSuffix_cons 'r' _ [']'] (by simp)
    obtain ⟨rest2, hb2⟩ := hb
    have hne : TrimSpace (sliceBody s) ≠ [] := by
      rw [hb2, TrimSpace_cons 'r' rest2 (by decide)]
      simp
    obtain ⟨hd, tl, hsplit⟩ := Split_cons_neg 'r' rest2 ',' (by decide)
    rw [parseIntSlice_eq, if_neg hne, hb2, hsplit]
    apply parseIntLoop_error_mem
    refine ⟨'r' :: hd, by simp, ?_⟩
    rw [TrimSpace_cons 'r' hd (by decide)]
    exact Atoi_nondigit 'r' _ (by decide) (by decide) (by decide)
  · have hsame : treeBody s = sliceBody s := by
      unfold treeBody sliceBody
      have : TrimPrefix (TrimSpace s) "root=".toList = TrimSpace s := by
        unfold TrimPrefix
        rw [if_neg hp]
      rw [this]
    rw [hsame] at hv
    obtain ⟨hne, heq⟩ := elements_eq (sliceBody s) (List.ne_nil_of_mem hv)
    rw [parseIntSlice_eq, if_neg hne]
    apply parseIntLoop_error_mem
    rw [heq] at hv
    exact ⟨v, hv, Atoi_nullWord _ hnull⟩

theorem elemValue_getD (v : Str) :
    (elemValue v).getD none
      = if isNullWord (TrimSpace v) then none else (Atoi (TrimSpace v)).toOption := by
  unfold elemValue
  by_cases hn : isNullWord (TrimSpace v) = true
  · simp [hn]
  · rw [if_neg hn, if_neg hn]
    cases Atoi (TrimSpace v) <;> rfl

theorem elemValue_eq_none (v : Str) (h : elemValue v = none) :
    isNullWord (TrimSpace v) = false ∧ ∃ e, Atoi (TrimSpace v) = .error e := by
  unfold elemValue at h
  by_cases hn : isNullWord (TrimSpace v) = true
  · rw [if_pos hn] at h; cases h
  · rw [if_neg hn] at h
    refine ⟨by simpa using hn, ?_⟩
    cases ha : Atoi (TrimSpace v) with
    | error e => exact ⟨e, rfl⟩
    | ok n => rw [ha] at h; cases h

theorem parseInput_ok_iff (s a b : Str) (nums : List Int) (target : Int)
    (h : Split s ';' = [a, b]) :
    parseInput s = .ok (nums, target) ↔
      (parseIntSlice (TrimPrefix (TrimSpace a) "nums=".toList) = .ok nums ∧
        Atoi (TrimPrefix (TrimSpace b) "target=".toList) = .ok target) := by
  unfold parseInput
  rw [h]
  dsimp only
  rw [if_neg (by simp)]
  have e0 : ([a, b] : List Str).getD 0 [] = a := rfl
  have e1 : ([a, b] : List Str).getD 1 [] = b := rfl
  rw [e0, e1]
  cases h1 : parseIntSlice (TrimPrefix (TrimSpace a) "nums=".toList) with
  | error e => simp
  | ok ns =>
    cases h2 : Atoi (TrimPrefix (TrimSpace b) "target=".toList) with
    | error e => simp
    | ok tg => simp

theorem parseInput_of_length_ne (s : Str) (h : (Split s ';').length ≠ 2) :
    parseInput s = .error (.errorf "expected nums and target".toList) := by
  unfold parseInput
  dsimp only
  rw [if_pos h]

theorem TrimSuffix_append (x suf : Str) : TrimSuffix (x ++ suf) suf = x := by
  unfold TrimSuffix
  have h : suf.isSuffixOf (x ++ suf) = true := by simp
  rw [if_pos h]
  have hl : (x ++ suf).length - suf.length = x.length := by simp
  rw [hl, List.take_left']
  rfl

theorem TrimPrefix_cons_ne (a c : Char) (rest : Str) (h : a ≠ c) :
    TrimPrefix (a :: rest) [c] = a :: rest := by
  unfold TrimPrefix
  have hp : List.isPrefixOf [c] (a :: rest) = false := by
    have hca : ¬ c = a := fun e => h e.symm
    simp [List.isPrefixOf, hca]
  rw [hp]
  rfl

theorem treeBody_blank_after_label (w1 w4 w2 w3 : Str) (a : Char) (h1 : allSpace w1 = true)
    (ha : isSpace a = true) (h3 : allSpace w3 = true) :
    treeBody (w1 ++ ("root=".toList ++ (a :: w4 ++ '[' :: (w2 ++ ']' :: w3))))
      = a :: w4 ++ '[' :: w2 := by
  have hs : w1 ++ ("root=".toList ++ (a :: w4 ++ '[' :: (w2 ++ ']' :: w3)))
      = w1 ++ 'r' :: ((['o', 'o', 't', '='] ++ (a :: w4) ++ '[' :: w2) ++ ']' :: w3) := by
    simp [String.toList]
  have hne : a ≠ '[' := fun e => by rw [e] at ha; exact absurd ha (by decide)
  have hp : TrimPrefix ('r' :: ((['o', 'o', 't', '='] ++ (a :: w4) ++ '[' :: w2) ++ [']']))
      "root=".toList = a :: ((w4 ++ '[' :: w2) ++ [']']) := by
    simp [TrimPrefix, String.toList]
  unfold treeBody
  rw [hs, TrimSpace_strip w1 w3 _ 'r' ']' h1 h3 (by decide) (by decide), hp,
    TrimPrefix_cons_ne a '[' _ hne, ← List.cons_append, TrimSuffix_append]
  rfl

theorem parseTreeInput_blank_after_label (w1 w4 w2 w3 : Str) (a : Char)
    (h1 : allSpace w1 = true) (ha : isSpace a = true) (h4 : allSpace w4 = true)
    (h2 : allSpace w2 = true) (h3 : allSpace w3 = true) :
    parseTreeInput (w1 ++ ("root=".toList ++ (a :: w4 ++ '[' :: (w2 ++ ']' :: w3))))
      = .error ⟨"Atoi".toList, ['['], .ErrSyntax⟩ := by
  have h4a : allSpace (a :: w4) = true := by
    simp only [allSpace, List.all_cons, Bool.and_eq_true] at h4 ⊢
    exact ⟨ha, h4⟩
  have htrim : TrimSpace (a :: w4 ++ '[' :: w2) = ['['] :=
    TrimSpace_strip_one (a :: w4) w2 '[' h4a h2 (by decide)
  have hsep : ',' ∉ a :: w4 ++ '[' :: w2 := by
    intro hmem
    have hsp : ∀ c ∈ (a :: w4), isSpace c = true := by
      simpa [allSpace, List.all_eq_true] using h4a
    have hsp2 : ∀ c ∈ w2, isSpace c = true := by
      simpa [allSpace, List.all_eq_true] using h2
    rcases List.mem_append.1 hmem with h | h
    · exact absurd (hsp _ h) (by decide)
    · rcases List.mem_cons.1 h with h | h
      · exact absurd h (by decide)
      · exact absurd (hsp2 _ h) (by decide)
  rw [parseTreeInput_eq, treeBody_blank_after_label w1 w4 w2 w3 a h1 ha h3, htrim,
    if_neg (by simp), Split_no_sep _ ',' hsep]
  simp only [parseTreeLoop, htrim]
  rfl

/-! ## buildTree on a sequence with no absent entry: the heap-shaped tree -/

theorem heapTree_of_lt (xs : List Int) (n k : Nat) (h : k < n) :
    heapTree xs n k
      = .node (xs.getD k 0) (heapTree xs n (2 * k + 1)) (heapTree xs n (2 * k + 2)) := by
  rw [heapTree, if_pos h]

theorem heapTree_of_ge (xs : List Int) (n k : Nat) (h : n ≤ k) : heapTree xs n k = .nil := by
  rw [heapTree, if_neg (by omega)]

theorem IsAnc_le (a i : Nat) (h : IsAnc a i) : a ≤ i := by
  induction h with
  | self => exact le_refl _
  | left i _ ih => omega
  | right i _ ih => omega

theorem IsAnc_inv (a m : Nat) (h : IsAnc a m) :
    ∀ i, (m = 2 * i + 1 ∨ m = 2 * i + 2) → a = m ∨ IsAnc a i := by
  cases h with
  | self => exact fun _ _ => Or.inl rfl
  | left x hx =>
    intro i hi
    have : x = i := by omega
    subst this
    exact Or.inr hx
  | right x hx =>
    intro i hi
    have : x = i := by omega
    subst this
    exact Or.inr hx

theorem IsAnc_child (a k i : Nat) (hk : k = 2 * a + 1 ∨ k = 2 * a + 2) (h : IsAnc k i) :
    IsAnc a i := by
  induction h with
  | self =>
    rcases hk with hk | hk
    · rw [hk]; exact .left a a (.self a)
    · rw [hk]; exact .right a a (.self a)
  | left i _ ih => exact .left a i ih
  | right i _ ih => exact .right a i ih

theorem IsAnc_comparable (a b i : Nat) (ha : IsAnc a i) (hb : IsAnc b i) (hab : a ≤ b) :
    IsAnc a b := by
  induction hb with
  | self => exact ha
  | left x hx ih =>
    rcases IsAnc_inv a _ ha x (Or.inl rfl) with h | h
    · have := IsAnc_le b x hx
      omega
    · exact ih h
  | right x hx ih =>
    rcases IsAnc_inv a _ ha x (Or.inr rfl) with h | h
    · have := IsAnc_le b x hx
      omega
    · exact ih h

theorem IsAnc_siblings (r i : Nat) (h1 : IsAnc (2 * r + 1) i) (h2 : IsAnc (2 * r + 2) i) :
    False := by
  have h := IsAnc_comparable _ _ i h1 h2 (by omega)
  rcases IsAnc_inv _ _ h r (Or.inr rfl) with h3 | h3
  · omega
  · have := IsAnc_le _ _ h3
    omega

theorem IsAnc_walk (r : Nat) (p : NodeRef) : IsAnc r (walk r p) := by
  induction p generalizing r with
  | nil => exact .self r
  | cons e p ih =>
    cases e with
    | L => exact IsAnc_child r (2 * r + 1) _ (Or.inl rfl) (ih (2 * r + 1))
    | R => exact IsAnc_child r (2 * r + 2) _ (Or.inr rfl) (ih (2 * r + 2))

theorem walk_append (r : Nat) (p q : NodeRef) : walk r (p ++ q) = walk (walk r p) q := by
  induction p generalizing r with
  | nil => rfl
  | cons e p ih => cases e <;> simp [walk, ih]

/-- Raising the bound past `i` changes the tree below `k` only when `k` is `i` or one
of its ancestors. -/
theorem heapTree_frame (xs : List Int) (i : Nat) :
    ∀ (m k : Nat), i + 1 - k ≤ m → ¬ IsAnc k i →
      heapTree xs (i + 1) k = heapTree xs i k := by
  intro m
  induction m with
  | zero =>
    intro k hk _
    rw [heapTree_of_ge _ _ _ (by omega), heapTree_of_ge _ _ _ (by omega)]
  | succ m ih =>
    intro k hk hanc
    by_cases hki : k < i
    · rw [heapTree_of_lt _ _ _ (by omega), heapTree_of_lt _ _ _ hki,
        ih (2 * k + 1) (by omega) (fun h => hanc (IsAnc_child k _ i (Or.inl rfl) h)),
        ih (2 * k + 2) (by omega) (fun h => hanc (IsAnc_child k _ i (Or.inr rfl) h))]
    · have : k ≠ i := fun e => hanc (e ▸ .self k)
      rw [heapTree_of_ge _ _ _ (by omega), heapTree_of_ge _ _ _ (by omega)]


theorem heapTree_leaf (xs : List Int) (i : Nat) :
    heapTree xs (i + 1) i = .node (xs.getD i 0) .nil .nil := by
  rw [heapTree_of_lt _ _ _ (by omega), heapTree_of_ge _ _ _ (by omega),
    heapTree_of_ge _ _ _ (by omega)]

theorem assignChild_heapTree (xs : List Int) (d : Dir) (i : Nat) :
    ∀ (p : NodeRef) (r : Nat), walk r (p ++ [d]) = i →
      assignChild d (heapTree xs i r) p (.node (xs.getD i 0) .nil .nil)
        = some (heapTree xs (i + 1) r) := by
  intro p
  induction p with
  | nil =>
    intro r hw
    cases d with
    | L =>
      simp only [List.nil_append, walk] at hw
      rw [heapTree_of_lt _ _ _ (by omega : r < i), heapTree_of_lt _ _ _ (by omega : r < i + 1)]
      simp only [assignChild]
      rw [hw, heapTree_leaf, heapTree_of_ge _ _ _ (by omega : i ≤ 2 * r + 2),
        heapTree_of_ge _ _ _ (by omega : i + 1 ≤ 2 * r + 2)]
    | R =>
      simp only [List.nil_append, walk] at hw
      rw [heapTree_of_lt _ _ _ (by omega : r < i), heapTree_of_lt _ _ _ (by omega : r < i + 1)]
      simp only [assignChild]
      rw [hw, heapTree_leaf]
      rw [heapTree_frame xs i _ (2 * r + 1) (le_refl _) (fun h => by
        rw [← hw] at h
        rcases IsAnc_inv _ _ h r (Or.inr rfl) with h3 | h3
        · omega
        · have := IsAnc_le _ _ h3
          omega)]
  | cons e p ih =>
    intro r hw
    cases e with
    | L =>
      simp only [List.cons_append, walk] at hw
      have hanc : IsAnc (2 * r + 1) i := hw ▸ IsAnc_walk (2 * r + 1) (p ++ [d])
      have hle := IsAnc_le _ _ hanc
      rw [heapTree_of_lt _ _ _ (by omega : r < i), heapTree_of_lt _ _ _ (by omega : r < i + 1)]
      simp only [assignChild, ih (2 * r + 1) hw, Option.map_some']
      rw [heapTree_frame xs i _ (2 * r + 2) (le_refl _)
        (fun h => IsAnc_siblings r i hanc h)]
    | R =>
      simp only [List.cons_append, walk] at hw
      have hanc : IsAnc (2 * r + 2) i := hw ▸ IsAnc_walk (2 * r + 2) (p ++ [d])
      have hle := IsAnc_le _ _ hanc
      rw [heapTree_of_lt _ _ _ (by omega : r < i), heapTree_of_lt _ _ _ (by omega : r < i + 1)]
      simp only [assignChild, ih (2 * r + 2) hw, Option.map_some']
      rw [heapTree_frame xs i _ (2 * r + 1) (le_refl _)
        (fun h => IsAnc_siblings r i h hanc)]

theorem childStep_heapTree (xs : List Int) (d : Dir) (i : Nat) (node : NodeRef)
    (queue : List NodeRef) (hi : i < xs.length) (hw : walk 0 (node ++ [d]) = i) :
    childStep d (xs.map some) (heapTree xs i 0) node queue i
      = some (heapTree xs (i + 1) 0, queue ++ [node ++ [d]]) := by
  unfold childStep
  rw [if_pos (by simpa using hi)]
  have hv : (xs.map some)[i]? = some (some (xs.getD i 0)) := by
    rw [List.getElem?_map, List.getElem?_eq_getElem hi, List.getD_eq_getElem _ _ hi]
    rfl
  rw [hv]
  simp only [assignChild_heapTree xs d i node 0 hw, Option.map_some']

theorem childStep_past_end (d : Dir) (vals : List (Option Int)) (root : TreeNode)
    (node : NodeRef) (queue : List NodeRef) (i : Nat) (hi : vals.length ≤ i) :
    childStep d vals root node queue i = some (root, queue) := by
  unfold childStep
  rw [if_neg (by omega)]

theorem buildLoop_heapTree (xs : List Int) :
    ∀ (m j : Nat) (queue : List NodeRef), xs.length - (2 * j + 1) ≤ m →
      2 * j + 1 ≤ xs.length →
      queue.map (walk 0) = List.range' j (j + 1) →
      buildLoop (xs.map some) (heapTree xs (2 * j + 1) 0) queue (2 * j + 1)
        = some (heapTree xs xs.length 0) := by
  intro m
  induction m with
  | zero =>
    intro j queue hm hle _
    have : 2 * j + 1 = xs.length := by omega
    rw [buildLoop, if_neg (by simp; omega), this]
  | succ m ih =>
    intro j queue hm hle hq
    by_cases hlt : 2 * j + 1 < xs.length
    · cases queue with
      | nil => simp [List.range'] at hq
      | cons node queue1 =>
        have hq0 : walk 0 node = j ∧ queue1.map (walk 0) = List.range' (j + 1) j := by
          rw [List.range'_succ] at hq
          simpa using hq
        rw [buildLoop, if_pos ⟨by simp, by simpa using hlt⟩]
        simp only [List.getElem?_cons_zero, List.drop_succ_cons, List.drop_zero]
        rw [childStep_heapTree xs .L (2 * j + 1) node queue1 hlt
          (by rw [walk_append, hq0.1]; rfl)]
        simp only
        by_cases hlt2 : 2 * j + 1 + 1 < xs.length
        · rw [childStep_heapTree xs .R (2 * j + 1 + 1) node _ hlt2
            (by rw [walk_append, hq0.1]; rfl)]
          simp only
          have e : 2 * j + 1 + 1 + 1 = 2 * (j + 1) + 1 := by omega
          rw [e]
          apply ih (j + 1) _ (by omega) (by omega)
          simp only [List.map_append, List.map_cons, List.map_nil, hq0.2, walk_append, hq0.1]
          have hr : List.range' (j + 1) (j + 1 + 1)
              = List.range' (j + 1) j ++ [2 * j + 1, 2 * j + 1 + 1] := by
            have h2 := List.range'_append_1 (j + 1) j 2
            rw [show 2 + j = j + 1 + 1 by omega, show j + 1 + j = 2 * j + 1 by omega] at h2
            rw [← h2]
            rfl
          rw [hr]
          simp [walk]
        · rw [childStep_past_end .R _ _ node _ _ (by simp; omega)]
          simp only
          rw [buildLoop, if_neg (by simp; omega)]
          have : 2 * j + 1 + 1 = xs.length := by omega
          rw [this]
    · have : 2 * j + 1 = xs.length := by omega
      rw [buildLoop, if_neg (by simp; omega), this]

theorem buildTree_heapTree (xs : List Int) (hne : xs ≠ []) :
    buildTree (xs.map some) = some (heapTree xs xs.length 0) := by
  cases xs with
  | nil => exact absurd rfl hne
  | cons x rest =>
    have h1 : heapTree (x :: rest) 1 0 = .node x .nil .nil := heapTree_leaf (x :: rest) 0
    have hl := buildLoop_heapTree (x :: rest) _ 0 [[]] (le_refl _) (by simp) (by simp [walk])
    simp only [Nat.mul_zero, Nat.zero_add, h1] at hl
    unfold buildTree
    simp only [List.map_cons, List.length_cons, Nat.add_one_ne_zero, if_false,
      List.getElem?_cons_zero]
    exact hl

theorem nodeAt_heapTree (xs : List Int) (n : Nat) (p : NodeRef) (r : Nat) :
    nodeAt (heapTree xs n r) p = heapTree xs n (walk r p) := by
  induction p generalizing r with
  | nil => simp [nodeAt, walk]
  | cons e p ih =>
    by_cases hr : r < n
    · rw [heapTree_of_lt _ _ _ hr]
      cases e with
      | L => simp only [nodeAt, walk]; exact ih _
      | R => simp only [nodeAt, walk]; exact ih _
    · have hle := IsAnc_le _ _ (IsAnc_walk r (e :: p))
      rw [heapTree_of_ge _ _ _ (by omega), heapTree_of_ge _ _ _ (by omega), nodeAt_nil]

theorem walk_surjective : ∀ k : Nat, ∃ p, walk 0 p = k := by
  intro k
  induction k using Nat.strong_induction_on with
  | _ k ih =>
    by_cases hk : k = 0
    · exact ⟨[], by rw [hk]; rfl⟩
    · obtain ⟨p, hp⟩ := ih ((k - 1) / 2) (by omega)
      by_cases hodd : k % 2 = 1
      · exact ⟨p ++ [.L], by rw [walk_append, hp]; simp only [walk]; omega⟩
      · exact ⟨p ++ [.R], by rw [walk_append, hp]; simp only [walk]; omega⟩

theorem attached_all_present (xs : List Int) :
    ∀ (m q : Nat), xs.length ≤ m → attached (q + 1) (xs.map some) = xs.length := by
  intro m
  induction m generalizing xs with
  | zero =>
    intro q h
    have : xs = [] := List.length_eq_zero.1 (by omega)
    subst this
    rfl
  | succ m ih =>
    intro q h
    match xs, h with
    | [], _ => rfl
    | [a], _ => simp [attached, present]
    | a :: b :: rest, h =>
      simp only [List.map_cons, attached, present, Option.isSome_some, if_true,
        List.length_cons]
      rw [show q + 1 + 1 = (q + 1) + 1 from rfl, ih rest (q + 1) (by simp at h; omega)]
      omega

theorem heapTree_size (xs : List Int) (hne : xs ≠ []) :
    (heapTree xs xs.length 0).size = xs.length := by
  obtain ⟨t, ht, hsz⟩ := buildTree_size (xs.map some)
  rw [buildTree_heapTree xs hne] at ht
  cases ht
  cases xs with
  | nil => exact absurd rfl hne
  | cons x rest =>
    simp only [List.map_cons] at hsz
    rw [hsz, attached_all_present rest _ 0 (le_refl _)]
    simp
    omega

/-! ## Rows whose input has no valid pair -/

theorem twoSumCase_no_pair (TwoSum : List Int → Int → Option (List Int) × List Int)
    (row : List Str) (nums : List Int) (target : Int) (h3 : row.length = 3)
    (hin : parseInput (row.getD 1 []) = .ok (nums, target))
    (hkey : TwoSumSolution (TwoSum nums target).2 target = none) :
    ∃ r, twoSumCase TwoSum row = some r ∧
      (r.passed = true ↔
        (parseIntSlice (row.getD 2 []) = .ok [] ∧ elems (TwoSum nums target).1 = [])) := by
  unfold twoSumCase
  rw [field_of_length row 1 (by omega), field_of_length row 2 (by omega)]
  simp only [hin]
  cases h2 : parseIntSlice (row.getD 2 []) with
  | error e => exact ⟨_, rfl, by simp [CaseRecord.passed]⟩
  | ok expected =>
    refine ⟨_, rfl, ?_⟩
    simp only [CaseRecord.passed, hkey, Bool.and_eq_true, equalSlices_iff_eq, elems,
      Option.getD_none, Except.ok.injEq]
    constructor
    · rintro ⟨h1, h2⟩
      exact ⟨h2.symm, h1⟩
    · rintro ⟨h1, h2⟩
      exact ⟨h2, h1.symm⟩

theorem no_pair_example : ¬ ∃ j i, isPair [1, 2] 9 j i := by
  rintro ⟨j, i, hji, hi, hsum⟩
  simp only [List.length_cons, List.length_nil] at hi
  have hj : j = 0 := by omega
  have hi1 : i = 1 := by omega
  subst hj
  subst hi1
  exact absurd hsum (by decide)

/-! ## The claims -/

/-- C8: `TwoSumSolution` returns no result exactly when no positions `j < i` hold
elements summing to `target`; otherwise it returns `[j, i]` with `j < i`, where `i` is
the smallest position that has an earlier complement and `j` is the largest position
below `i` holding the value `target - nums[i]`. -/
theorem TwoSumSolution_first_match (nums : List Int) (target : Int)
    (hn : ∀ x ∈ nums, inRange x) (ht : inRange target) :
    (TwoSumSolution nums target = none ↔ ¬ ∃ j i, isPair nums target j i) ∧
    ((∃ j i, isPair nums target j i) →
      ∃ j i : Nat, TwoSumSolution nums target = some [(j : Int), (i : Int)] ∧
        isPair nums target j i ∧
        (∀ j2 i2, isPair nums target j2 i2 → i ≤ i2) ∧
        nums.getD j 0 = goSub target (nums.getD i 0) ∧
        (∀ k, k < i → nums.getD k 0 = goSub target (nums.getD i 0) → k ≤ j)) :=
  twoSum_first_match nums target hn ht

theorem TwoSumSolution_first_match_witness :
    (∀ x ∈ [3, 4, 3, 3], inRange x) ∧ inRange 6 ∧
    (TwoSumSolution [3, 4, 3, 3] 6 = none ↔ ¬ ∃ j i, isPair [3, 4, 3, 3] 6 j i) ∧
    ((∃ j i, isPair [3, 4, 3, 3] 6 j i) →
      ∃ j i : Nat, TwoSumSolution [3, 4, 3, 3] 6 = some [(j : Int), (i : Int)] ∧
        isPair [3, 4, 3, 3] 6 j i ∧
        (∀ j2 i2, isPair [3, 4, 3, 3] 6 j2 i2 → i ≤ i2) ∧
        ([3, 4, 3, 3] : List Int).getD j 0 = goSub 6 (([3, 4, 3, 3] : List Int).getD i 0) ∧
        (∀ k, k < i → ([3, 4, 3, 3] : List Int).getD k 0
            = goSub 6 (([3, 4, 3, 3] : List Int).getD i 0) → k ≤ j)) :=
  ⟨by decide, by decide,
    TwoSumSolution_first_match [3, 4, 3, 3] 6 (by decide) (by decide)⟩

/-- C1: when exactly one pair of positions `j < i` has elements summing to `target`,
`TwoSumSolution` returns two indices that are distinct, within the bounds of `nums`, and
whose elements sum to `target`; for `[2,7,11,15]` and `9` the result is `[0,1]`. -/
theorem TwoSumSolution_unique_pair (nums : List Int) (target : Int)
    (hn : ∀ x ∈ nums, inRange x) (ht : inRange target)
    (huniq : ∃! p : Nat × Nat, isPair nums target p.1 p.2) :
    (∃ j i : Nat, TwoSumSolution nums target = some [(j : Int), (i : Int)] ∧
        j ≠ i ∧ j < nums.length ∧ i < nums.length ∧
        goAdd (nums.getD j 0) (nums.getD i 0) = target) ∧
    TwoSumSolution [2, 7, 11, 15] 9 = some [0, 1] := by
  refine ⟨?_, by decide⟩
  obtain ⟨p, hp, _⟩ := huniq
  obtain ⟨j, i, hr, ⟨hji, hi, hsum⟩, _⟩ :=
    (twoSum_first_match nums target hn ht).2 ⟨p.1, p.2, hp⟩
  exact ⟨j, i, hr, by omega, by omega, hi, hsum⟩

theorem TwoSumSolution_unique_pair_witness :
    (∀ x ∈ [2, 7, 11, 15], inRange x) ∧ inRange 9 ∧
    (∃! p : Nat × Nat, isPair [2, 7, 11, 15] 9 p.1 p.2) ∧
    ((∃ j i : Nat, TwoSumSolution [2, 7, 11, 15] 9 = some [(j : Int), (i : Int)] ∧
        j ≠ i ∧ j < ([2, 7, 11, 15] : List Int).length ∧
        i < ([2, 7, 11, 15] : List Int).length ∧
        goAdd (([2, 7, 11, 15] : List Int).getD j 0)
          (([2, 7, 11, 15] : List Int).getD i 0) = 9) ∧
      TwoSumSolution [2, 7, 11, 15] 9 = some [0, 1]) := by
  have hu : ∃! p : Nat × Nat, isPair [2, 7, 11, 15] 9 p.1 p.2 := by
    refine ⟨(0, 1), by decide, ?_⟩
    rintro ⟨j, i⟩ ⟨hji, hi, hsum⟩
    simp only [List.length_cons, List.length_nil] at hi
    simp only at hji
    interval_cases i <;> interval_cases j <;> first | rfl | (exact absurd hsum (by decide))
  exact ⟨by decide, by decide, hu,
    TwoSumSolution_unique_pair [2, 7, 11, 15] 9 (by decide) (by decide) hu⟩

/-- C2: for every integer sequence `vals`, the values of
`ReverseListSolution(buildList(vals))` read by `listToSlice` are `vals` in reverse order;
`[1,2,3]` gives `[3,2,1]` and the empty sequence gives the empty sequence. -/
theorem ReverseListSolution_reverses :
    (∀ vals : List Int, listToSlice (ReverseListSolution (buildList vals)) = vals.reverse) ∧
    listToSlice (ReverseListSolution (buildList [1, 2, 3])) = [3, 2, 1] ∧
    listToSlice (ReverseListSolution (buildList [])) = [] := by
  refine ⟨fun vals => ?_, by decide, by decide⟩
  rw [listToSlice_ReverseListSolution, listToSlice_buildList]

/-- C5: reversing twice restores every sequence, and a sequence of length 0 or 1 is
already unchanged by a single reversal. -/
theorem ReverseListSolution_involutive :
    (∀ vals : List Int,
      listToSlice (ReverseListSolution (ReverseListSolution (buildList vals))) = vals) ∧
    (∀ vals : List Int, vals.length ≤ 1 →
      listToSlice (ReverseListSolution (buildList vals)) = vals) := by
  refine ⟨fun vals => ?_, fun vals h => ?_⟩
  · rw [listToSlice_ReverseListSolution, listToSlice_ReverseListSolution, listToSlice_buildList]
    simp
  · rw [listToSlice_ReverseListSolution, listToSlice_buildList]
    match vals, h with
    | [], _ => rfl
    | [_], _ => rfl

theorem ReverseListSolution_involutive_witness :
    listToSlice (ReverseListSolution (ReverseListSolution (buildList [4, 5, 6]))) = [4, 5, 6] ∧
    listToSlice (ReverseListSolution (buildList [7])) = [7] :=
  ⟨ReverseListSolution_involutive.1 [4, 5, 6], ReverseListSolution_involutive.2 [7] (by decide)⟩

/-- C3: for every finite binary tree, the explicit-stack `InorderTraversalSolution`
returns (so it terminates, without a panic) exactly the sequence of the recursive
definition `inorder`; the tree built from the literal `[1,null,2]` gives `[1,2]`. -/
theorem InorderTraversalSolution_refines_inorder :
    (∀ t : TreeNode, InorderTraversalSolution t = some (inorder t)) ∧
    inorder .nil = [] ∧
    (∀ v l r, inorder (.node v l r) = inorder l ++ [v] ++ inorder r) ∧
    parseTreeInput "[1,null,2]".toList = .ok [some 1, none, some 2] ∧
    (buildTree [some 1, none, some 2]).bind InorderTraversalSolution = some [1, 2] := by
  refine ⟨InorderTraversalSolution_eq, rfl, fun _ _ _ => rfl, by decide, ?_⟩
  have hb : buildTree [some 1, none, some 2] = some (.node 1 .nil (.node 2 .nil .nil)) := by
    simp [buildTree, buildLoop, childStep, assignChild]
  rw [hb, Option.some_bind, InorderTraversalSolution_eq]
  rfl

/-- C4, as the claim states it, fails: `[null,1]` and `[1,null,null,2]` are sequences
`parseTreeInput` returns, and for each the traversal of its tree is shorter than the
number of present entries. -/
theorem inorder_length_counterexample :
    (parseTreeInput "[null,1]".toList = .ok [none, some 1] ∧
      ∃ out, (buildTree [none, some 1]).bind InorderTraversalSolution = some out ∧
        out.length = 0 ∧ countPresent [none, some 1] = 1 ∧
        out.length ≠ countPresent [none, some 1]) ∧
    (parseTreeInput "[1,null,null,2]".toList = .ok [some 1, none, none, some 2] ∧
      ∃ out, (buildTree [some 1, none, none, some 2]).bind InorderTraversalSolution = some out ∧
        out.length = 1 ∧ countPresent [some 1, none, none, some 2] = 2 ∧
        out.length ≠ countPresent [some 1, none, none, some 2]) := by
  have hb1 : buildTree [none, some 1] = some .nil := by simp [buildTree]
  have hb2 : buildTree [some 1, none, none, some 2] = some (.node 1 .nil .nil) := by
    simp [buildTree, buildLoop, childStep]
  refine ⟨⟨by decide, [], ?_, rfl, by decide, by decide⟩,
    ⟨by decide, [1], ?_, rfl, by decide, by decide⟩⟩
  · rw [hb1, Option.some_bind, InorderTraversalSolution_eq]; rfl
  · rw [hb2, Option.some_bind, InorderTraversalSolution_eq]; rfl

/-- C4, amended: for every optional-integer sequence `vals`, `buildTree` and the
traversal return, the length of the traversal is at most the number of present entries
of `vals`, and it equals that number exactly when every present entry gets a place in
the tree (`levelOrderOk`): the first entry is present and the queue does not run out
while a present entry remains, or no entry is present. -/
theorem inorder_length_buildTree (vals : List (Option Int)) :
    ∃ t out, buildTree vals = some t ∧ InorderTraversalSolution t = some out ∧
      out.length ≤ countPresent vals ∧
      (out.length = countPresent vals ↔ levelOrderOk vals = true) := by
  obtain ⟨t, ht, hle, hiff⟩ := buildTree_size_le vals
  refine ⟨t, inorder t, ht, InorderTraversalSolution_eq t, ?_, ?_⟩
  · rw [inorder_length]; exact hle
  · rw [inorder_length]; exact hiff

theorem inorder_length_buildTree_witness :
    levelOrderOk [some 1, none, some 2] = true ∧
    ∃ t out, buildTree [some 1, none, some 2] = some t ∧
      InorderTraversalSolution t = some out ∧
      out.length ≤ countPresent [some 1, none, some 2] ∧
      (out.length = countPresent [some 1, none, some 2] ↔
        levelOrderOk [some 1, none, some 2] = true) :=
  ⟨by decide, inorder_length_buildTree [some 1, none, some 2]⟩

/-- C6: when the tree `buildTree` returns for `vals` is a binary search tree, the
sequence `InorderTraversalSolution` returns for it is non-decreasing. -/
theorem InorderTraversalSolution_sorted (vals : List (Option Int)) (t : TreeNode)
    (hb : buildTree vals = some t) (hbst : isBST t = true) :
    ∃ out, (buildTree vals).bind InorderTraversalSolution = some out ∧
      out.Pairwise (fun a b => a ≤ b) := by
  refine ⟨inorder t, ?_, inorder_sorted t hbst⟩
  rw [hb, Option.some_bind, InorderTraversalSolution_eq]

theorem InorderTraversalSolution_sorted_witness :
    buildTree [some 2, some 1, some 3] = some (.node 2 (.node 1 .nil .nil) (.node 3 .nil .nil)) ∧
    isBST (.node 2 (.node 1 .nil .nil) (.node 3 .nil .nil)) = true ∧
    ∃ out, (buildTree [some 2, some 1, some 3]).bind InorderTraversalSolution = some out ∧
      out.Pairwise (fun a b => a ≤ b) :=
  have hb : buildTree [some 2, some 1, some 3]
      = some (.node 2 (.node 1 .nil .nil) (.node 3 .nil .nil)) := by
    simp [buildTree, buildLoop, childStep, assignChild]
  ⟨hb, by decide, InorderTraversalSolution_sorted _ _ hb (by decide)⟩

/-- C7: for every sequence of integers in the machine `int` range, `parseIntSlice`
applied to its serialised form `[` + decimal renderings joined by `,` + `]` succeeds
and returns exactly that sequence; the empty sequence serialises to `[]`, which parses
back to the empty sequence. -/
theorem parseIntSlice_serialize (seq : List Int) (h : ∀ x ∈ seq, inRange x) :
    parseIntSlice (serialize seq) = .ok seq ∧
    serialize [] = "[]".toList ∧
    parseIntSlice "[]".toList = .ok [] :=
  ⟨parseIntSlice_serialize_ok seq h, by decide, by decide⟩

theorem parseIntSlice_serialize_witness :
    (∀ x ∈ [2, -7, 0, 9223372036854775807, -9223372036854775808], inRange x) ∧
    serialize [2, -7, 0, 9223372036854775807, -9223372036854775808]
      = "[2,-7,0,9223372036854775807,-9223372036854775808]".toList ∧
    (parseIntSlice (serialize [2, -7, 0, 9223372036854775807, -9223372036854775808])
        = .ok [2, -7, 0, 9223372036854775807, -9223372036854775808] ∧
      serialize [] = "[]".toList ∧
      parseIntSlice "[]".toList = .ok []) :=
  ⟨by decide, by decide,
    parseIntSlice_serialize [2, -7, 0, 9223372036854775807, -9223372036854775808] (by decide)⟩

/-- C9: `equalSlices(a, b)` is true exactly when `a` and `b` have the same length and
the same value at every index; so two sequences with the same elements in a different
order compare unequal. -/
theorem equalSlices_positional :
    (∀ a b : List Int, equalSlices a b = true ↔
      (a.length = b.length ∧ ∀ i, i < a.length → a.getD i 0 = b.getD i 0)) ∧
    (∀ a b : List Int, a.Perm b → a ≠ b → equalSlices a b = false) ∧
    equalSlices [1, 2] [2, 1] = false := by
  refine ⟨fun a b => ?_, fun a b _ hne => ?_, by decide⟩
  · rw [equalSlices_iff_eq]
    constructor
    · intro h
      subst h
      exact ⟨rfl, fun _ _ => rfl⟩
    · rintro ⟨hl, hi⟩
      apply List.ext_getElem hl
      intro i h1 h2
      have := hi i h1
      rwa [List.getD_eq_getElem _ _ h1, List.getD_eq_getElem _ _ h2] at this
  · cases h : equalSlices a b with
    | false => rfl
    | true => exact absurd ((equalSlices_iff_eq a b).1 h) hne

/-- C10: for every list of three-field rows each `main` prints a tally `passed X/Y`
with `Y` the number of rows, `X ≤ Y`, and a parse-error record, never counted, for
every row with a parse failure. In the tree and list harnesses, for every candidate,
`X` is the number of rows whose two literals parse and for which the candidate's
output is the reference output and the reference output is the expected sequence; so
it is in the two-sum harness for a candidate that leaves `nums` as it received it.
The two-sum harness breaks this for a candidate that writes to `nums`: for the row
`nums=[1,2];target=9` with expected `[0,1]` and a candidate that writes `4, 5` and
returns `[0,1]`, it prints `passed 1/1`, although the reference output for `[1,2]`
and `9` is the nil slice and no row meets the condition. -/
theorem main_tally :
    (∀ (InorderTraversal : TreeNode → Option (List Int)) (rows : List (List Str)),
      (∀ row ∈ rows, row.length = 3) →
      ∃ t, treeMain InorderTraversal rows = some t ∧
        tallyOk (treeRowPasses InorderTraversal) treeRowFails rows t) ∧
    (∀ (ReverseList : ListNode → ListNode) (rows : List (List Str)),
      (∀ row ∈ rows, row.length = 3) →
      ∃ t, listMain ReverseList rows = some t ∧
        tallyOk (listRowPasses ReverseList) listRowFails rows t) ∧
    (∀ (TwoSum : List Int → Int → Option (List Int) × List Int) (rows : List (List Str)),
      (∀ row ∈ rows, row.length = 3) →
      (∀ nums target, (TwoSum nums target).2 = nums) →
      ∃ t, twoSumMain TwoSum rows = some t ∧
        tallyOk (twoSumRowPasses TwoSum) twoSumRowFails rows t) ∧
    (parseInput "nums=[1,2];target=9".toList = .ok ([1, 2], 9) ∧
      TwoSumSolution [1, 2] 9 = none ∧
      parseIntSlice "[0,1]".toList = .ok [0, 1] ∧
      twoSumMain (fun _ _ => (some [0, 1], [4, 5]))
          [["1".toList, "nums=[1,2];target=9".toList, "[0,1]".toList]]
        = some ⟨1, 1, [.caseResult true [0, 1] [0, 1] [0, 1]]⟩ ∧
      List.countP (twoSumRowPasses (fun _ _ => (some [0, 1], [4, 5])))
          [["1".toList, "nums=[1,2];target=9".toList, "[0,1]".toList]] = 0) :=
  ⟨fun InorderTraversal rows h3 =>
      mainTally_spec _ _ _ rows (fun row hrow => treeCase_spec InorderTraversal row (h3 row hrow)),
    fun ReverseList rows h3 =>
      mainTally_spec _ _ _ rows (fun row hrow => listCase_spec ReverseList row (h3 row hrow)),
    fun TwoSum rows h3 hkeep =>
      mainTally_spec _ _ _ rows (fun row hrow =>
        twoSumCase_spec TwoSum row (h3 row hrow) (fun nums target _ => hkeep nums target)),
    by decide, by decide, by decide, by decide, by decide⟩

theorem main_tally_witness :
    (∀ row ∈ [["1".toList, "root=[1,null,2]".toList, "[1,2]".toList],
        ["2".toList, "[1,x,3]".toList, "[]".toList]], row.length = 3) ∧
    (∃ t, treeMain (fun root => some (inorder root))
        [["1".toList, "root=[1,null,2]".toList, "[1,2]".toList],
          ["2".toList, "[1,x,3]".toList, "[]".toList]] = some t ∧
      tallyOk (treeRowPasses (fun root => some (inorder root))) treeRowFails
        [["1".toList, "root=[1,null,2]".toList, "[1,2]".toList],
          ["2".toList, "[1,x,3]".toList, "[]".toList]] t) ∧
    (∀ row ∈ [["1".toList, "nums=[2,7,11,15];target=9".toList, "[0,1]".toList],
        ["2".toList, "nums=[1,2]".toList, "[]".toList]], row.length = 3) ∧
    (∀ nums target,
      ((fun nums target => (TwoSumSolution nums target, nums)) nums target :
        Option (List Int) × List Int).2 = nums) ∧
    (∃ t, twoSumMain (fun nums target => (TwoSumSolution nums target, nums))
        [["1".toList, "nums=[2,7,11,15];target=9".toList, "[0,1]".toList],
          ["2".toList, "nums=[1,2]".toList, "[]".toList]] = some t ∧
      tallyOk (twoSumRowPasses (fun nums target => (TwoSumSolution nums target, nums)))
        twoSumRowFails
        [["1".toList, "nums=[2,7,11,15];target=9".toList, "[0,1]".toList],
          ["2".toList, "nums=[1,2]".toList, "[]".toList]] t) ∧
    twoSumMain (fun nums target => (TwoSumSolution nums target, nums))
        [["1".toList, "nums=[2,7,11,15];target=9".toList, "[0,1]".toList],
          ["2".toList, "nums=[1,2]".toList, "[]".toList]]
      = some ⟨1, 2, [.caseResult true [0, 1] [0, 1] [0, 1],
          .parseInputError (.errorf "expected nums and target".toList)]⟩ :=
  ⟨by decide, main_tally.1 _ _ (by decide), by decide, fun _ _ => rfl,
    main_tally.2.2.1 _ _ (by decide) (fun _ _ => rfl), by decide⟩

/-- C14: for every integer sequence `vals`, `buildList(vals)` is the chain whose values
read head to tail are exactly `vals` in order, so `listToSlice(buildList(vals))` is
`vals`, and `buildList` of the empty sequence is the nil head. -/
theorem buildList_chain :
    (∀ vals : List Int, buildList vals = chainOf vals) ∧
    (∀ vals : List Int, listToSlice (buildList vals) = vals) ∧
    buildList [] = .nil ∧
    buildList [1, 2, 3] = .node 1 (.node 2 (.node 3 .nil)) :=
  ⟨buildList_eq_chainOf, listToSlice_buildList, rfl, by decide⟩

/-- C17: for every optional-integer sequence `vals`, the number of nodes of
`buildTree(vals)`, which is the length of its traversal, is at most the number of
present entries of `vals`; and `buildTree(vals)` is nil, with an empty traversal,
exactly when `vals` is empty or its first entry is absent, whatever follows. -/
theorem buildTree_size_bound (vals : List (Option Int)) :
    ∃ t out, buildTree vals = some t ∧ InorderTraversalSolution t = some out ∧
      out.length = t.size ∧ t.size ≤ countPresent vals ∧
      (t = .nil ↔ (vals = [] ∨ vals.head? = some none)) ∧
      (out = [] ↔ (vals = [] ∨ vals.head? = some none)) := by
  obtain ⟨t, ht, hle, _⟩ := buildTree_size_le vals
  refine ⟨t, inorder t, ht, InorderTraversalSolution_eq t, inorder_length t, hle,
    buildTree_eq_nil_iff vals t ht, ?_⟩
  rw [inorder_eq_nil_iff]
  exact buildTree_eq_nil_iff vals t ht

theorem buildTree_size_bound_witness :
    ∃ t out, buildTree [none, some 1, some 2] = some t ∧
      InorderTraversalSolution t = some out ∧
      out.length = t.size ∧ t.size ≤ countPresent [none, some 1, some 2] ∧
      (t = .nil ↔ (([none, some 1, some 2] : List (Option Int)) = [] ∨
        ([none, some 1, some 2] : List (Option Int)).head? = some none)) ∧
      (out = [] ↔ (([none, some 1, some 2] : List (Option Int)) = [] ∨
        ([none, some 1, some 2] : List (Option Int)).head? = some none)) :=
  buildTree_size_bound [none, some 1, some 2]

/-- C18: no slice access of the tree pipeline is out of range. Whenever the loop of
`InorderTraversalSolution` runs its body, the stack it pops from is non-empty, and for
every tree the function returns; whenever the loop of `buildTree` runs its body,
`queue[0]` and `vals[i]` exist, and for every sequence the function returns. Neither
function can panic. -/
theorem tree_pipeline_no_panic :
    (∀ (curr : TreeNode) (stack : List TreeNode), (curr ≠ .nil ∨ stack.length > 0) →
      (pushLeft curr stack).length - 1 < (pushLeft curr stack).length ∧
      (pushLeft curr stack)[(pushLeft curr stack).length - 1]? ≠ none) ∧
    (∀ t : TreeNode, ∃ out, InorderTraversalSolution t = some out) ∧
    (∀ (vals : List (Option Int)) (queue : List NodeRef) (i : Nat),
      (queue.length > 0 ∧ i < vals.length) → queue[0]? ≠ none ∧ vals[i]? ≠ none) ∧
    (∀ (vals : List (Option Int)) (root : TreeNode) (queue : List NodeRef) (i : Nat),
      QueueOk root queue → ∃ t, buildLoop vals root queue i = some t) ∧
    (∀ vals : List (Option Int), ∃ t, buildTree vals = some t) := by
  refine ⟨fun curr stack h => ?_, fun t => ⟨inorder t, InorderTraversalSolution_eq t⟩,
    fun vals queue i h => ?_, fun vals root queue i hq => ?_, fun vals => ?_⟩
  · have hne := pushLeft_ne_nil curr stack h
    have hpos : 0 < (pushLeft curr stack).length := List.length_pos.2 hne
    refine ⟨by omega, ?_⟩
    rw [List.getElem?_eq_getElem (by omega)]
    simp
  · refine ⟨?_, ?_⟩
    · rw [List.getElem?_eq_getElem h.1]; simp
    · rw [List.getElem?_eq_getElem h.2]; simp
  · obtain ⟨t, ht, _⟩ := buildLoop_size vals _ root queue i (le_refl _) hq
    exact ⟨t, ht⟩
  · obtain ⟨t, ht, _⟩ := buildTree_size vals
    exact ⟨t, ht⟩

/-- C11: when some comma-separated element of a literal, once trimmed, is not a valid
integer (and, for `parseTreeInput`, is not the word `null`), `parseIntSlice` and
`parseTreeInput` return an error and no sequence, and the error is the `strconv.Atoi`
error that names the first such element as trimmed; `[1,x,3]` fails with an error
naming `x`. -/
theorem parse_error_names_token :
    (∀ (s : Str) (pre post : List Str) (v : Str),
      elements (sliceBody s) = pre ++ v :: post →
      (∀ u ∈ pre, ∃ n, Atoi (TrimSpace u) = .ok n) →
      (Atoi (TrimSpace v)).toBool = false →
      ∃ e, parseIntSlice s = .error e ∧ e.Num = TrimSpace v ∧ e.Func = "Atoi".toList) ∧
    (∀ (s : Str) (pre post : List Str) (v : Str),
      elements (treeBody s) = pre ++ v :: post →
      (∀ u ∈ pre, elemValue u ≠ none) →
      elemValue v = none →
      ∃ e, parseTreeInput s = .error e ∧ e.Num = TrimSpace v ∧ e.Func = "Atoi".toList) ∧
    parseIntSlice "[1,x,3]".toList = .error ⟨"Atoi".toList, "x".toList, .ErrSyntax⟩ ∧
    parseTreeInput "[1,x,3]".toList = .error ⟨"Atoi".toList, "x".toList, .ErrSyntax⟩ := by
  refine ⟨fun s pre post v hel hpre hv => ?_, fun s pre post v hel hpre hv => ?_,
    by decide, by decide⟩
  · cases ha : Atoi (TrimSpace v) with
    | ok n => rw [ha] at hv; cases hv
    | error e =>
      exact ⟨e, parseIntSlice_error_first s pre post v e hel hpre ha,
        (Atoi_error _ e ha).1, (Atoi_error _ e ha).2⟩
  · obtain ⟨hnull, e, ha⟩ := elemValue_eq_none v hv
    exact ⟨e, parseTreeInput_error_first s pre post v e hel hpre hnull ha,
      (Atoi_error _ e ha).1, (Atoi_error _ e ha).2⟩

theorem parse_error_names_token_witness :
    elements (sliceBody "[1, x ,3]".toList) = ["1".toList] ++ " x ".toList :: ["3".toList] ∧
    (∀ u ∈ ["1".toList], ∃ n, Atoi (TrimSpace u) = .ok n) ∧
    (Atoi (TrimSpace " x ".toList)).toBool = false ∧
    (∃ e, parseIntSlice "[1, x ,3]".toList = .error e ∧ e.Num = TrimSpace " x ".toList ∧
      e.Func = "Atoi".toList) ∧
    elements (treeBody "root=[null, 7z]".toList) = ["null".toList] ++ " 7z".toList :: [] ∧
    (∀ u ∈ ["null".toList], elemValue u ≠ none) ∧
    elemValue " 7z".toList = none ∧
    (∃ e, parseTreeInput "root=[null, 7z]".toList = .error e ∧
      e.Num = TrimSpace " 7z".toList ∧ e.Func = "Atoi".toList) :=
  have h1 : ∀ u ∈ ["1".toList], ∃ n, Atoi (TrimSpace u) = .ok n := fun u hu => by
    simp only [List.mem_singleton] at hu
    subst hu
    exact ⟨1, by decide⟩
  ⟨by decide, h1, by decide,
    parse_error_names_token.1 "[1, x ,3]".toList ["1".toList] ["3".toList] " x ".toList
      (by decide) h1 (by decide),
    by decide, by decide, by decide,
    parse_error_names_token.2.1 "root=[null, 7z]".toList ["null".toList] [] " 7z".toList
      (by decide) (by decide) (by decide)⟩

/-- C12: the test `parseTreeInput` makes is the word `null` in any letter case; a
literal whose elements are each that word or a valid integer parses to the sequence
with an absent entry at the position of every such word and the integers at theirs;
and `parseIntSlice` rejects with an error every literal that has such a word among
its elements. -/
theorem parseTreeInput_null_absent :
    (∀ t : Str, EqualFold t "null".toList = isNullWord t) ∧
    (∀ s : Str, (∀ v ∈ elements (treeBody s), elemValue v ≠ none) →
      parseTreeInput s = .ok ((elements (treeBody s)).map
        (fun v => if isNullWord (TrimSpace v) then none else (Atoi (TrimSpace v)).toOption))) ∧
    (∀ s : Str, (∃ v ∈ elements (treeBody s), isNullWord (TrimSpace v) = true) →
      ∃ e, parseIntSlice s = .error e) ∧
    parseTreeInput "[1, NULL ,nUlL,3]".toList = .ok [some 1, none, none, some 3] ∧
    parseIntSlice "[1, NULL ,nUlL,3]".toList
      = .error ⟨"Atoi".toList, "NULL".toList, .ErrSyntax⟩ := by
  refine ⟨EqualFold_null_eq, fun s h => ?_, parseIntSlice_rejects_null, by decide, by decide⟩
  rw [parseTreeInput_ok s h]
  congr 1
  apply List.map_congr_left
  intro v _
  exact elemValue_getD v

theorem parseTreeInput_null_absent_witness :
    (∀ v ∈ elements (treeBody "root=[5,Null,-6]".toList), elemValue v ≠ none) ∧
    parseTreeInput "root=[5,Null,-6]".toList
      = .ok ((elements (treeBody "root=[5,Null,-6]".toList)).map
        (fun v => if isNullWord (TrimSpace v) then none else (Atoi (TrimSpace v)).toOption)) ∧
    (elements (treeBody "root=[5,Null,-6]".toList)).map
        (fun v => if isNullWord (TrimSpace v) then none else (Atoi (TrimSpace v)).toOption)
      = [some 5, none, some (-6)] ∧
    (∃ v ∈ elements (treeBody "root=[5,Null,-6]".toList), isNullWord (TrimSpace v) = true) ∧
    (∃ e, parseIntSlice "root=[5,Null,-6]".toList = .error e) :=
  have h1 : ∀ v ∈ elements (treeBody "root=[5,Null,-6]".toList), elemValue v ≠ none := by
    decide
  have h2 : ∃ v ∈ elements (treeBody "root=[5,Null,-6]".toList),
      isNullWord (TrimSpace v) = true := ⟨"Null".toList, by decide, by decide⟩
  ⟨h1, parseTreeInput_null_absent.2.1 _ h1, by decide, h2,
    parseTreeInput_null_absent.2.2.1 _ h2⟩

/-- C13: `parseInput(s)` fails whenever splitting `s` on `;` does not give exactly two
fields, that is whenever `s` does not hold exactly one `;`; when it gives two, the
first trimmed and stripped of `nums=`, the second trimmed and stripped of `target=`,
`parseInput` succeeds exactly when the first parses with `parseIntSlice` and the second
with `strconv.Atoi`, and it returns that sequence and that integer;
`nums=[2,7,11,15];target=9` yields `([2,7,11,15], 9)`. -/
theorem parseInput_two_fields :
    (∀ s : Str, (Split s ';').length ≠ 2 → ∃ e, parseInput s = .error e) ∧
    (∀ s : Str, (Split s ';').length = s.count ';' + 1) ∧
    (∀ (s a b : Str) (nums : List Int) (target : Int), Split s ';' = [a, b] →
      (parseInput s = .ok (nums, target) ↔
        (parseIntSlice (TrimPrefix (TrimSpace a) "nums=".toList) = .ok nums ∧
          Atoi (TrimPrefix (TrimSpace b) "target=".toList) = .ok target))) ∧
    parseInput "nums=[2,7,11,15];target=9".toList = .ok ([2, 7, 11, 15], 9) := by
  exact ⟨fun s h => ⟨_, parseInput_of_length_ne s h⟩, fun s => Split_length s ';',
    fun s a b nums target h => parseInput_ok_iff s a b nums target h, by decide⟩

theorem parseInput_two_fields_witness :
    (Split "nums=[1];target=2;".toList ';').length ≠ 2 ∧
    (∃ e, parseInput "nums=[1];target=2;".toList = .error e) ∧
    Split " nums=[3,4] ; target=-7".toList ';'
      = [" nums=[3,4] ".toList, " target=-7".toList] ∧
    (parseInput " nums=[3,4] ; target=-7".toList = .ok ([3, 4], -7) ↔
      (parseIntSlice (TrimPrefix (TrimSpace " nums=[3,4] ".toList) "nums=".toList)
          = .ok [3, 4] ∧
        Atoi (TrimPrefix (TrimSpace " target=-7".toList) "target=".toList) = .ok (-7))) ∧
    parseInput " nums=[3,4] ; target=-7".toList = .ok ([3, 4], -7) :=
  ⟨by decide, parseInput_two_fields.1 _ (by decide), by decide,
    parseInput_two_fields.2.2.1 _ _ _ _ _ (by decide), by decide⟩

/-- C15: white space alone, and a bracket pair holding only white space, parse to the
empty sequence with no error in `parseIntSlice`, `parseInputList` and `parseTreeInput`,
also behind the label `head=` or `root=` and with white space around: the empty
string, `[]`, `  [ ]  `, `head=[]`, `root=[]`. `parseInputList` accepts white space
between `head=` and `[` as well. `parseTreeInput` does not: with white space between
`root=` and `[`, as in `root= [ ]`, the text is empty after stripping white space,
label and bracket pair, and yet `parseTreeInput` returns the `strconv.Atoi` error
naming `[`. -/
theorem empty_literal_empty_sequence :
    (∀ w1 w2 w3 w4 : Str, allSpace w1 = true → allSpace w2 = true → allSpace w3 = true →
      allSpace w4 = true →
      parseIntSlice w1 = .ok [] ∧ parseInputList w1 = .ok [] ∧ parseTreeInput w1 = .ok [] ∧
      parseIntSlice (w1 ++ '[' :: (w2 ++ ']' :: w3)) = .ok [] ∧
      parseInputList (w1 ++ ("head=".toList ++ (w4 ++ '[' :: (w2 ++ ']' :: w3)))) = .ok [] ∧
      parseTreeInput (w1 ++ ("root=[".toList ++ (w2 ++ ']' :: w3))) = .ok [] ∧
      parseTreeInput (w1 ++ '[' :: (w2 ++ ']' :: w3)) = .ok []) ∧
    (parseIntSlice "".toList = .ok [] ∧ parseIntSlice "[]".toList = .ok [] ∧
      parseIntSlice "  [ ]  ".toList = .ok [] ∧
      parseInputList "head=[]".toList = .ok [] ∧ parseInputList "".toList = .ok [] ∧
      parseTreeInput "root=[]".toList = .ok [] ∧ parseTreeInput "[]".toList = .ok [] ∧
      parseTreeInput "".toList = .ok []) ∧
    (∀ (w1 w2 w3 w4 : Str) (a : Char), allSpace w1 = true → allSpace w2 = true →
      allSpace w3 = true → allSpace w4 = true → isSpace a = true →
      parseTreeInput (w1 ++ ("root=".toList ++ (a :: w4 ++ '[' :: (w2 ++ ']' :: w3))))
        = .error ⟨"Atoi".toList, "[".toList, .ErrSyntax⟩) ∧
    parseTreeInput "root= [ ]".toList = .error ⟨"Atoi".toList, "[".toList, .ErrSyntax⟩ ∧
    parseInputList "head= [ ]".toList = .ok [] := by
  refine ⟨fun w1 w2 w3 w4 h1 h2 h3 h4 => ?_,
    ⟨by decide, by decide, by decide, by decide, by decide, by decide, by decide, by decide⟩,
    fun w1 w2 w3 w4 a h1 h2 h3 h4 ha => ?_, by decide, by decide⟩
  · exact ⟨parseIntSlice_allSpace w1 h1, parseInputList_allSpace w1 h1,
      parseTreeInput_allSpace w1 h1, parseIntSlice_brackets w1 w2 w3 h1 h2 h3,
      parseInputList_brackets w1 w4 w2 w3 h1 h4 h2 h3,
      (parseTreeInput_brackets w1 w2 w3 h1 h2 h3).1,
      (parseTreeInput_brackets w1 w2 w3 h1 h2 h3).2⟩
  · exact parseTreeInput_blank_after_label w1 w4 w2 w3 a h1 ha h4 h2 h3

theorem empty_literal_empty_sequence_witness :
    parseInputList (" ".toList ++ ("head=".toList ++ (" ".toList ++
      '[' :: ("  ".toList ++ ']' :: "\n".toList)))) = .ok [] ∧
    parseTreeInput (" ".toList ++ ("root=[".toList ++ ("\t".toList ++ ']' :: "\n".toList)))
      = .ok [] ∧
    parseTreeInput (" ".toList ++ ("root=".toList ++
      (' ' :: "\t".toList ++ '[' :: ("".toList ++ ']' :: "\n".toList))))
      = .error ⟨"Atoi".toList, "[".toList, .ErrSyntax⟩ :=
  ⟨(empty_literal_empty_sequence.1 " ".toList "  ".toList "\n".toList " ".toList
      (by decide) (by decide) (by decide) (by decide)).2.2.2.2.1,
    (empty_literal_empty_sequence.1 " ".toList "\t".toList "\n".toList [] (by decide)
      (by decide) (by decide) (by decide)).2.2.2.2.2.1,
    empty_literal_empty_sequence.2.2.1 " ".toList "".toList "\n".toList "\t".toList ' '
      (by decide) (by decide) (by decide) (by decide) (by decide)⟩

/-- C16: for every non-empty sequence with no absent entry, `buildTree` returns the
breadth-first (heap-shaped) tree: the root holds `vals[0]`; the node reached by a path
is the node of the level-order index of that path; the node of index `k` holds
`vals[k]`, its left child is the node of index `2k+1`, present exactly when
`2k+1 < len(vals)`, and its right child the node of index `2k+2`, present exactly when
`2k+2 < len(vals)`; every index below `len(vals)` is reached, and the tree has
`len(vals)` nodes, so every entry is exactly one node. -/
theorem buildTree_heap_shaped (xs : List Int) (hne : xs ≠ []) :
    ∃ t, buildTree (xs.map some) = some t ∧
      t = heapTree xs xs.length 0 ∧
      (∃ l r, t = .node (xs.getD 0 0) l r) ∧
      (∀ p, nodeAt t p = heapTree xs xs.length (walk 0 p)) ∧
      (∀ k, k < xs.length →
        heapTree xs xs.length k
          = .node (xs.getD k 0) (heapTree xs xs.length (2 * k + 1))
              (heapTree xs xs.length (2 * k + 2))) ∧
      (∀ k, xs.length ≤ k → heapTree xs xs.length k = .nil) ∧
      (∀ k, k < xs.length → ∃ p, walk 0 p = k) ∧
      t.size = xs.length := by
  have hpos : 0 < xs.length := List.length_pos.2 hne
  refine ⟨heapTree xs xs.length 0, buildTree_heapTree xs hne, rfl,
    ⟨_, _, heapTree_of_lt xs _ 0 hpos⟩, fun p => nodeAt_heapTree xs _ p 0,
    fun k hk => heapTree_of_lt xs _ k hk, fun k hk => heapTree_of_ge xs _ k hk,
    fun k _ => walk_surjective k, heapTree_size xs hne⟩

theorem buildTree_heap_shaped_witness :
    ([5, 3, 8, 1] : List Int) ≠ [] ∧
    buildTree [some 5, some 3, some 8, some 1]
      = some (.node 5 (.node 3 (.node 1 .nil .nil) .nil) (.node 8 .nil .nil)) ∧
    ∃ t, buildTree (([5, 3, 8, 1] : List Int).map some) = some t ∧
      t = heapTree [5, 3, 8, 1] ([5, 3, 8, 1] : List Int).length 0 ∧
      (∃ l r, t = .node (([5, 3, 8, 1] : List Int).getD 0 0) l r) ∧
      (∀ p, nodeAt t p = heapTree [5, 3, 8, 1] ([5, 3, 8, 1] : List Int).length (walk 0 p)) ∧
      (∀ k, k < ([5, 3, 8, 1] : List Int).length →
        heapTree [5, 3, 8, 1] ([5, 3, 8, 1] : List Int).length k
          = .node (([5, 3, 8, 1] : List Int).getD k 0)
              (heapTree [5, 3, 8, 1] ([5, 3, 8, 1] : List Int).length (2 * k + 1))
              (heapTree [5, 3, 8, 1] ([5, 3, 8, 1] : List Int).length (2 * k + 2))) ∧
      (∀ k, ([5, 3, 8, 1] : List Int).length ≤ k →
        heapTree [5, 3, 8, 1] ([5, 3, 8, 1] : List Int).length k = .nil) ∧
      (∀ k, k < ([5, 3, 8, 1] : List Int).length → ∃ p, walk 0 p = k) ∧
      t.size = ([5, 3, 8, 1] : List Int).length :=
  ⟨by decide, by simp [buildTree, buildLoop, childStep, assignChild],
    buildTree_heap_shaped [5, 3, 8, 1] (by decide)⟩

/-- C19: for `nums` and `target` with no valid pair, `TwoSumSolution` returns the nil
slice, which `equalSlices` takes for the empty sequence: the comparison with `expected`
is true exactly when `expected` is empty; and when the candidate leaves `nums` as it
received it, such a row passes if and only if its expected literal parses to the empty
sequence and the candidate returns an empty or nil result. The harness breaks the row
part for a candidate that writes to `nums`, because `main` hands `TwoSumSolution` the
same slice: the row `nums=[1,2];target=9` has no valid pair and the expected literal
`[0,1]`, and it passes for the candidate that writes `4, 5` and returns `[0,1]`. -/
theorem no_pair_row :
    (∀ (nums : List Int) (target : Int), (∀ x ∈ nums, inRange x) → inRange target →
      (¬ ∃ j i, isPair nums target j i) →
      TwoSumSolution nums target = none ∧
      (∀ expected : List Int,
        equalSlices (elems (TwoSumSolution nums target)) expected = true ↔ expected = []) ∧
      (∀ (TwoSum : List Int → Int → Option (List Int) × List Int) (row : List Str),
        row.length = 3 → parseInput (row.getD 1 []) = .ok (nums, target) →
        (TwoSum nums target).2 = nums →
        ∃ r, twoSumCase TwoSum row = some r ∧
          (r.passed = true ↔
            (parseIntSlice (row.getD 2 []) = .ok [] ∧
              elems (TwoSum nums target).1 = [])))) ∧
    (parseInput "nums=[1,2];target=9".toList = .ok ([1, 2], 9) ∧
      (¬ ∃ j i, isPair [1, 2] 9 j i) ∧
      TwoSumSolution [1, 2] 9 = none ∧
      parseIntSlice "[0,1]".toList = .ok [0, 1] ∧
      twoSumCase (fun _ _ => (some [0, 1], [4, 5]))
          ["1".toList, "nums=[1,2];target=9".toList, "[0,1]".toList]
        = some (.caseResult true [0, 1] [0, 1] [0, 1]) ∧
      ¬ (parseIntSlice "[0,1]".toList = .ok [] ∧ elems (some [0, 1]) = [])) := by
  refine ⟨fun nums target hn ht hno => ?_,
    by decide, no_pair_example, by decide, by decide, by decide, by decide⟩
  have hnone : TwoSumSolution nums target = none :=
    (twoSum_first_match nums target hn ht).1.2 hno
  refine ⟨hnone, fun expected => ?_, fun TwoSum row h3 hin hsame => ?_⟩
  · rw [hnone, equalSlices_iff_eq]
    exact eq_comm
  · exact twoSumCase_no_pair TwoSum row nums target h3 hin (by rw [hsame]; exact hnone)

theorem no_pair_row_witness :
    (∀ x ∈ [1, 2], inRange x) ∧ inRange 9 ∧ (¬ ∃ j i, isPair [1, 2] 9 j i) ∧
    TwoSumSolution [1, 2] 9 = none ∧
    (∀ expected : List Int,
      equalSlices (elems (TwoSumSolution [1, 2] 9)) expected = true ↔ expected = []) ∧
    twoSumCase (fun nums target => (TwoSumSolution nums target, nums))
        ["1".toList, "nums=[1,2];target=9".toList, "[]".toList]
      = some (.caseResult true [] [] []) :=
  ⟨by decide, by decide, no_pair_example,
    (no_pair_row.1 [1, 2] 9 (by decide) (by decide) no_pair_example).1,
    (no_pair_row.1 [1, 2] 9 (by decide) (by decide) no_pair_example).2.1, by decide⟩

end Leetcli
